import Mathlib

set_option maxRecDepth 8000

attribute [local semireducible] Rat.mul Rat.add Rat.inv Rat.sub

namespace PalletPack

/-! Shallow embedding of the placement core of `app.py` (PalletsLoadingOnContainer).
Dimensions are rational numbers standing for the Python floats, quantities are
integers, and the mutable loops of `pack` become fuel-indexed recursions that
return `none` only on fuel exhaustion (shown never to happen). Python's stable
`list.sort` is embedded as `List.insertionSort`, which is stable for the same
tie-breaking order. -/

/-- Pallet type record, mirroring `PalletSpec` in app.py: identity `pid`,
dimensions `l, w, h` and demanded quantity `qty`. -/
structure PalletSpec where
  pid : String
  l : ℚ
  w : ℚ
  h : ℚ
  qty : ℤ
deriving DecidableEq, Repr

/-- Container type record, mirroring `ContainerSpec` in app.py. -/
structure ContainerSpec where
  id : String
  l : ℚ
  w : ℚ
  h : ℚ
  qty : ℤ
  ctype : String := ""
deriving DecidableEq, Repr

/-- Committed placement record, mirroring `LoadedItem` in app.py; `h` is the
total stacked height. -/
structure LoadedItem where
  container_id : String
  pallet_id : String
  x : ℚ
  y : ℚ
  z : ℚ
  l : ℚ
  w : ℚ
  h : ℚ
  row : ℤ
  col : ℤ
  layer : ℤ
  qty_in_stack : ℤ
  label : String
  stacked : Bool
deriving DecidableEq, Repr

/-- Axis-aligned empty region inside a container instance, mirroring `FreeBox`
in app.py. -/
structure FreeBox where
  x : ℚ
  y : ℚ
  z : ℚ
  l : ℚ
  w : ℚ
  h : ℚ
deriving DecidableEq, Repr

/-- `FreeBox.volume` from app.py: product of the extents, each clamped at 0. -/
def FreeBox.volume (b : FreeBox) : ℚ := max b.l 0 * max b.w 0 * max b.h 0

/-- Python's `round(v, 3)` on exact values: round to the nearest integer with
ties going to the even integer (banker's rounding), after scaling by 1000. -/
def rdHalfEven (q : ℚ) : ℤ :=
  let f := ⌊q⌋
  let r := q - f
  if r < 1/2 then f
  else if 1/2 < r then f + 1
  else if f % 2 = 0 then f else f + 1

/-- Rounding of one dimension to 3 decimal places, as in `unique_orientations`. -/
def round3 (q : ℚ) : ℚ := (rdHalfEven (q * 1000) : ℚ) / 1000

/-- The six axis-permutations of a pallet's dimensions, in the exact order the
`candidates` list of `unique_orientations` enumerates them. -/
def orientationCandidates (p : PalletSpec) : List (ℚ × ℚ × ℚ) :=
  [(p.l, p.w, p.h), (p.w, p.l, p.h), (p.l, p.h, p.w),
   (p.h, p.l, p.w), (p.w, p.h, p.l), (p.h, p.w, p.l)]

/-- Rounded key used by the de-duplication in `unique_orientations`. -/
def roundKey (o : ℚ × ℚ × ℚ) : ℚ × ℚ × ℚ := (round3 o.1, round3 o.2.1, round3 o.2.2)

/-- The `seen`-set filtering loop of `unique_orientations`: keep a candidate
whose rounded key has not been seen, in first-seen order. -/
def uniqueAux : List (ℚ × ℚ × ℚ) → List (ℚ × ℚ × ℚ) → List (ℚ × ℚ × ℚ)
  | [], _ => []
  | c :: rest, seen =>
    if roundKey c ∈ seen then uniqueAux rest seen
    else c :: uniqueAux rest (roundKey c :: seen)

/-- `unique_orientations` from app.py. -/
def unique_orientations (p : PalletSpec) : List (ℚ × ℚ × ℚ) :=
  uniqueAux (orientationCandidates p) []

/-- `_overlap_1d` from app.py: open-interval overlap of `[a0,a1)` and `[b0,b1)`. -/
def overlap1d (a0 a1 b0 b1 : ℚ) : Bool := !(decide (a1 ≤ b0) || decide (b1 ≤ a0))

/-- `_intersects` from app.py: 3D overlap iff the projections overlap on all
three axes. -/
def intersects (a b : LoadedItem) : Bool :=
  overlap1d a.x (a.x + a.l) b.x (b.x + b.l) &&
  overlap1d a.y (a.y + a.w) b.y (b.y + b.w) &&
  overlap1d a.z (a.z + a.h) b.z (b.z + b.h)

/-- `split_free_both` from app.py: right / front / above residual boxes of a
free box around an item at its minimum corner, retained only with positive
volume. -/
def split_free_both (box : FreeBox) (item : LoadedItem) : List FreeBox :=
  let right_l := (box.x + box.l) - (item.x + item.l)
  let front_w := (box.y + box.w) - (item.y + item.w)
  let above_h := (box.z + box.h) - (item.z + item.h)
  let new_boxes :=
    (if 0 < right_l then [⟨item.x + item.l, box.y, box.z, right_l, box.w, box.h⟩] else []) ++
    (if 0 < front_w then [⟨box.x, item.y + item.w, box.z, box.l, front_w, box.h⟩] else []) ++
    (if 0 < above_h then [⟨box.x, box.y, item.z + item.h, box.l, box.w, above_h⟩] else [])
  new_boxes.filter (fun b => decide (0 < b.volume))

/-- Remaining-demand map: the `missed` dict of `pack`, as an association list
in insertion order. -/
abbrev Missed := List (String × ℤ)

/-- Dictionary lookup (first entry with the key; 0 stands for a key that every
actual `pack` access has inserted beforehand). -/
def lookupD : Missed → String → ℤ
  | [], _ => 0
  | (k, v) :: rest, pid => if k = pid then v else lookupD rest pid

/-- Dictionary write `m[pid] = v` keeping insertion order, appending when the
key is new: the dict-comprehension semantics building `missed`. -/
def setKey : Missed → String → ℤ → Missed
  | [], pid, v => [(pid, v)]
  | (k, q) :: rest, pid, v =>
    if k = pid then (k, v) :: rest else (k, q) :: setKey rest pid v

/-- Dictionary update `m[pid] -= v`. -/
def decrKey : Missed → String → ℤ → Missed
  | [], _, _ => []
  | (k, q) :: rest, pid, v =>
    if k = pid then (k, q - v) :: rest else (k, q) :: decrKey rest pid v

/-- The initial demand dict `{_pid(p): int(p.qty) for p in pallets}`. -/
def buildMissed (pallets : List PalletSpec) : Missed :=
  pallets.foldl (fun m p => setKey m p.pid p.qty) []

/-- Python's `sum(missed.values())`. -/
def sumValues (m : Missed) : ℤ := (m.map Prod.snd).sum

/-- `STACK_MAX` from app.py (module constant, 0 = no cap). -/
def STACK_MAX : ℤ := 0

/-- The stack-count expression `min(max_by_height, req, STACK_MAX or max_by_height)`
of `pack`, with the cap as an explicit first argument (`pack` passes `STACK_MAX`);
Python's `or` yields `maxBy` exactly when the cap is 0. -/
def stacksFor (cap maxBy req : ℤ) : ℤ :=
  min maxBy (min req (if cap = 0 then maxBy else cap))

/-- The data of the `best` tuple tracked by the candidate search in `pack`. -/
structure Cand where
  pal : PalletSpec
  pid : String
  l : ℚ
  w : ℚ
  h : ℚ
  stackCnt : ℤ
deriving DecidableEq, Repr

/-- One orientation step of the candidate search of `pack`: fit test, stack
count, utilization score, strict improvement over the accumulator. Python's
`int(fb.h // h)` raises ZeroDivisionError when the orientation height is 0;
the rational division here is total (`⌊fb.h / 0⌋ = 0`), so the embedding
agrees with the Python only on runs in which no scored orientation has a
zero height — theorems asserting that `pack` returns normally therefore
restrict to pallet records with nonzero dimensions (the utilization divisor
`fb.volume` is separately shown positive for positively-dimensioned
containers). -/
def considerOrient (fb : FreeBox) (req : ℤ) (pal : PalletSpec)
    (acc : Option Cand × ℚ) (o : ℚ × ℚ × ℚ) : Option Cand × ℚ :=
  if o.1 ≤ fb.l ∧ o.2.1 ≤ fb.w ∧ o.2.2 ≤ fb.h then
    let maxBy : ℤ := ⌊fb.h / o.2.2⌋
    let stackCnt := stacksFor STACK_MAX maxBy req
    if stackCnt ≤ 0 then acc
    else
      let util := o.1 * o.2.1 * o.2.2 * (stackCnt : ℚ) / fb.volume
      if acc.2 < util then (some ⟨pal, pal.pid, o.1, o.2.1, o.2.2, stackCnt⟩, util) else acc
  else acc

/-- One pallet step of the candidate search of `pack`: skip exhausted demand,
else scan all unique orientations. -/
def considerPallet (missedm : Missed) (fb : FreeBox) (acc : Option Cand × ℚ)
    (pal : PalletSpec) : Option Cand × ℚ :=
  let req := lookupD missedm pal.pid
  if req ≤ 0 then acc
  else (unique_orientations pal).foldl (considerOrient fb req pal) acc

/-- The whole `best`-candidate search of `pack` over one free box, starting
from `best = None; best_util = 0`. -/
def bestCandidate (ps : List PalletSpec) (missedm : Missed) (fb : FreeBox) : Option Cand :=
  (ps.foldl (considerPallet missedm fb) (none, 0)).1

/-- Mutable state of `pack` while filling one container instance. -/
structure St where
  free : List FreeBox
  loaded : List LoadedItem
  missed : Missed
  total_left : ℤ
  row : ℤ
  col : ℤ
  placed : Bool
deriving DecidableEq, Repr

/-- Free-box ordering key `(z, y, x)` of the per-pass `free.sort`. -/
def freeLe (a b : FreeBox) : Prop :=
  a.z < b.z ∨ (a.z = b.z ∧ (a.y < b.y ∨ (a.y = b.y ∧ a.x ≤ b.x)))

instance : DecidableRel freeLe := fun a b =>
  inferInstanceAs (Decidable (a.z < b.z ∨ (a.z = b.z ∧ (a.y < b.y ∨ (a.y = b.y ∧ a.x ≤ b.x)))))

/-- Python's stable `free.sort(key=lambda b: (b.z, b.y, b.x))`. -/
def sortFree (free : List FreeBox) : List FreeBox := List.insertionSort freeLe free

/-- Descending-volume order of `pallets_sorted` (ascending in minus volume). -/
def palletLe (p q : PalletSpec) : Prop := q.l * q.w * q.h ≤ p.l * p.w * p.h

instance : DecidableRel palletLe := fun p q =>
  inferInstanceAs (Decidable (q.l * q.w * q.h ≤ p.l * p.w * p.h))

/-- Python's stable `sorted(pallets, key=lambda p: -(p.l*p.w*p.h))`. -/
def sortPallets (pallets : List PalletSpec) : List PalletSpec :=
  List.insertionSort palletLe pallets

/-- A container instance as `pack` builds it: the type record paired with the
instance id string. -/
abbrev CInst := ContainerSpec × String

/-- Descending-interior-volume order of container instances. -/
def instLe (a b : CInst) : Prop := b.1.l * b.1.w * b.1.h ≤ a.1.l * a.1.w * a.1.h

instance : DecidableRel instLe := fun a b =>
  inferInstanceAs (Decidable (b.1.l * b.1.w * b.1.h ≤ a.1.l * a.1.w * a.1.h))

/-- The instance-expansion loop of `pack`: for each container type append
`(c, f"{c.id}-{i}")` for `i` in `range(1, int(c.qty)+1)`. -/
def expandContainers (cs : List ContainerSpec) : List CInst :=
  cs.foldl
    (fun acc c => acc ++ (List.range c.qty.toNat).map (fun n => (c, c.id ++ "-" ++ toString (n + 1))))
    []

/-- Expansion followed by the stable sort by descending interior volume. -/
def containerInstances (cs : List ContainerSpec) : List CInst :=
  List.insertionSort instLe (expandContainers cs)

/-- Construction of the prospective `LoadedItem` in `pack` (position at the
free box's corner, total height `h*stackCnt`, layer `int(fb.z//max(h,1))+1`). -/
def mkLoaded (cid : String) (st : St) (fb : FreeBox) (c : Cand) : LoadedItem :=
  { container_id := cid, pallet_id := c.pid,
    x := fb.x, y := fb.y, z := fb.z,
    l := c.l, w := c.w, h := c.h * (c.stackCnt : ℚ),
    row := st.row, col := st.col,
    layer := ⌊fb.z / max c.h 1⌋ + 1,
    qty_in_stack := c.stackCnt, label := c.pid,
    stacked := decide (1 < c.stackCnt) }

/-- The collision test of `pack`: any already-loaded item of the same container
instance passing the z-proximity pre-filter `abs(ex.z-candidate.z) < max(h, ex.h)`
that 3D-intersects the candidate (`h` is the unit height of the candidate). -/
def collidesWith (loaded : List LoadedItem) (cid : String) (h : ℚ) (cand : LoadedItem) : Bool :=
  loaded.any (fun ex =>
    ex.container_id == cid && decide (|ex.z - cand.z| < max h ex.h) && intersects cand ex)

/-- Default free box used to spell Python's `free[i]` subscript. -/
def fbDefault : FreeBox := ⟨0, 0, 0, 0, 0, 0⟩

/-- The state change of a successful commit in `pack`: append the placement,
decrement demand and `total_left` by the stack count, replace the consumed
free box by its split residuals, bump the column counter, flag the pass. -/
def commitSt (cid : String) (st : St) (i : ℕ) (c : Cand) : St :=
  let fb := st.free.getD i fbDefault
  let cand := mkLoaded cid st fb c
  { free := st.free.eraseIdx i ++ split_free_both fb cand,
    loaded := st.loaded ++ [cand],
    missed := decrKey st.missed c.pid c.stackCnt,
    total_left := st.total_left - c.stackCnt,
    row := st.row, col := st.col + 1, placed := true }

/-- The inner `while i < len(free) and total_left > 0` scan of `pack`, as a
fuel-indexed recursion; `none` means the fuel ran out (shown to never happen).
A free box without usable best candidate, or whose candidate fails the
collision test, is skipped by `i + 1`; otherwise the candidate is committed
and the scan keeps the same index on the updated state. -/
def scanLoop (ps : List PalletSpec) (cid : String) : ℕ → St → ℕ → Option St
  | 0, _, _ => none
  | fuel + 1, st, i =>
    if i < st.free.length ∧ 0 < st.total_left then
      let fb := st.free.getD i fbDefault
      match bestCandidate ps st.missed fb with
      | none => scanLoop ps cid fuel st (i + 1)
      | some c =>
        if collidesWith st.loaded cid c.h (mkLoaded cid st fb c) then
          scanLoop ps cid fuel st (i + 1)
        else scanLoop ps cid fuel (commitSt cid st i c) i
    else some st

/-- Fuel that always suffices for one scan (three fuel units per remaining
demand unit cover the growth of the free list on commits). -/
def scanFuel (st : St) : ℕ := 3 * st.total_left.toNat + st.free.length + 1

/-- Pass preamble of `pack`: `placed_any = False` and the stable free-list
sort by `(z, y, x)`. -/
def sortSt (st : St) : St := { st with placed := false, free := sortFree st.free }

/-- Row/column bookkeeping after a pass that placed something. -/
def rowBump (st : St) : St := if st.placed then { st with row := st.row + 1, col := 1 } else st

/-- The outer `while placed_any and total_left > 0` pass loop of `pack`:
reset `placed_any`, sort the free list, scan from `i = 0`, then bump the
row counter when the pass placed something. -/
def passLoop (ps : List PalletSpec) (cid : String) : ℕ → St → Option St
  | 0, _ => none
  | fuel + 1, st =>
    if st.placed ∧ 0 < st.total_left then
      match scanLoop ps cid (scanFuel (sortSt st)) (sortSt st) 0 with
      | none => none
      | some st2 => passLoop ps cid fuel (rowBump st2)
    else some st

/-- The single full-interior free box a container instance starts with. -/
def initFree (c : ContainerSpec) : List FreeBox := [⟨0, 0, 0, c.l, c.w, c.h⟩]

/-- The `for c, cid in container_instances` loop of `pack`, threading the
loaded list, the demand dict and `total_left`; the `break` on exhausted
demand returns the accumulator unchanged. -/
def containersLoop (ps : List PalletSpec) :
    List CInst → List LoadedItem × Missed × ℤ → Option (List LoadedItem × Missed × ℤ)
  | [], acc => some acc
  | (c, cid) :: rest, (loaded, missedm, tl) =>
    if tl ≤ 0 then some (loaded, missedm, tl)
    else
      match passLoop ps cid (tl.toNat + 1) ⟨initFree c, loaded, missedm, tl, 1, 1, true⟩ with
      | none => none
      | some st => containersLoop ps rest (st.loaded, st.missed, st.total_left)

/-- `pack` from app.py: build the demand dict and `total_left`, sort pallets by
descending volume, expand and sort container instances, run the fill loops and
return `(loaded, missed)`. -/
def pack (containers : List ContainerSpec) (pallets : List PalletSpec) :
    Option (List LoadedItem × Missed) :=
  let missed0 := buildMissed pallets
  match containersLoop (sortPallets pallets) (containerInstances containers)
      ([], missed0, sumValues missed0) with
  | none => none
  | some (loaded, missedm, _) => some (loaded, missedm)

/-- Total stack count placed for one pallet id, the left summand of the
conservation invariant. -/
def sumStacks (loaded : List LoadedItem) (pid : String) : ℤ :=
  (loaded.map (fun it => if it.pallet_id = pid then it.qty_in_stack else 0)).sum

/-- Pairwise non-overlap check over a placement list: no two distinct items of
the same container instance 3D-intersect. -/
def overlapFree : List LoadedItem → Bool
  | [] => true
  | a :: rest =>
    rest.all (fun b => !(a.container_id == b.container_id && intersects a b)) && overlapFree rest

/-- The three residual boxes exactly as the specification describes them:
right residual beyond the item in x with the box's full y/z extents, front
residual beyond the item in y with the box's full x/z extents, above residual
beyond the item in z with the box's full x/y extents. Modelled from the claim
wording, to be compared with `split_free_both`. -/
def claimResiduals (box : FreeBox) (item : LoadedItem) : List FreeBox :=
  [⟨item.x + item.l, box.y, box.z, (box.x + box.l) - (item.x + item.l), box.w, box.h⟩,
   ⟨box.x, item.y + item.w, box.z, box.l, (box.y + box.w) - (item.y + item.w), box.h⟩,
   ⟨box.x, box.y, item.z + item.h, box.l, box.w, (box.z + box.h) - (item.z + item.h)⟩]

/-- Container-instance expansion as the claim words it, with the instances of
one type "ordered by descending instance index". Modelled from the claim
wording, to be compared with `expandContainers`. -/
def expandContainersDesc (cs : List ContainerSpec) : List CInst :=
  cs.foldl
    (fun acc c =>
      acc ++ ((List.range c.qty.toNat).map (fun n => (c, c.id ++ "-" ++ toString (n + 1)))).reverse)
    []

/-- Instance list as claimed: descending-index expansion, then the stable sort
by descending interior volume. Modelled from the claim wording. -/
def containerInstancesDesc (cs : List ContainerSpec) : List CInst :=
  List.insertionSort instLe (expandContainersDesc cs)

/-- Membership of a free box in a container's interior, together with strict
positivity of its extents: the ledger invariant maintained by `pack`. -/
def BoxIn (c : ContainerSpec) (b : FreeBox) : Prop :=
  0 ≤ b.x ∧ 0 < b.l ∧ b.x + b.l ≤ c.l ∧
  0 ≤ b.y ∧ 0 < b.w ∧ b.y + b.w ≤ c.w ∧
  0 ≤ b.z ∧ 0 < b.h ∧ b.z + b.h ≤ c.h

/-- The bounds condition of the specification for one placed item inside a
container of dimensions `c.l × c.w × c.h` (`it.h` is the stacked height). -/
def ItemIn (c : ContainerSpec) (it : LoadedItem) : Prop :=
  0 ≤ it.x ∧ it.x + it.l ≤ c.l ∧ 0 ≤ it.y ∧ it.y + it.w ≤ c.w ∧ 0 ≤ it.z ∧ it.z + it.h ≤ c.h

/-- Key list of the demand dict. -/
def keysOf (m : Missed) : List String := m.map Prod.fst

/-- An item that a run of the fill loops can have appended: it carries a stack
count of at least 1 and stems from a listed pallet with positive dimension
product and positive remaining demand at the time the container was entered. -/
def FromPallet (ps : List PalletSpec) (m : Missed) (it : LoadedItem) : Prop :=
  1 ≤ it.qty_in_stack ∧
  ∃ pal, pal ∈ ps ∧ it.pallet_id = pal.pid ∧ 0 < pal.l * pal.w * pal.h ∧ 0 < lookupD m pal.pid

/-- An item appended while filling container instance `cid`. -/
def NewItem (ps : List PalletSpec) (cid : String) (m : Missed) (it : LoadedItem) : Prop :=
  it.container_id = cid ∧ FromPallet ps m it

/-- What `bestCandidate` guarantees about a returned candidate. -/
def CandSpec (ps : List PalletSpec) (m : Missed) (fb : FreeBox) (c : Cand) : Prop :=
  c.pal ∈ ps ∧ c.pid = c.pal.pid ∧
  (c.l, c.w, c.h) ∈ orientationCandidates c.pal ∧
  c.l ≤ fb.l ∧ c.w ≤ fb.w ∧ c.h ≤ fb.h ∧
  1 ≤ c.stackCnt ∧ c.stackCnt ≤ ⌊fb.h / c.h⌋ ∧
  c.stackCnt ≤ lookupD m c.pal.pid ∧ 0 < lookupD m c.pal.pid ∧
  0 < c.l * c.w * c.h

section Lemmas

lemma volume_nonneg (b : FreeBox) : 0 ≤ b.volume := by
  unfold FreeBox.volume
  have h1 : (0:ℚ) ≤ max b.l 0 := le_max_right _ _
  have h2 : (0:ℚ) ≤ max b.w 0 := le_max_right _ _
  have h3 : (0:ℚ) ≤ max b.h 0 := le_max_right _ _
  positivity

lemma volume_pos_iff (b : FreeBox) : 0 < b.volume ↔ 0 < b.l ∧ 0 < b.w ∧ 0 < b.h := by
  unfold FreeBox.volume
  constructor
  · intro h
    refine ⟨?_, ?_, ?_⟩
    · by_contra hc
      rw [not_lt] at hc
      rw [max_eq_right hc, zero_mul, zero_mul] at h
      exact lt_irrefl 0 h
    · by_contra hc
      rw [not_lt] at hc
      rw [max_eq_right hc, mul_zero, zero_mul] at h
      exact lt_irrefl 0 h
    · by_contra hc
      rw [not_lt] at hc
      rw [max_eq_right hc, mul_zero] at h
      exact lt_irrefl 0 h
  · rintro ⟨h1, h2, h3⟩
    rw [max_eq_left h1.le, max_eq_left h2.le, max_eq_left h3.le]
    exact mul_pos (mul_pos h1 h2) h3

lemma split_mem_volume_pos {box : FreeBox} {item : LoadedItem} :
    ∀ b ∈ split_free_both box item, 0 < b.volume := by
  intro b hb
  unfold split_free_both at hb
  rw [List.mem_filter] at hb
  exact of_decide_eq_true hb.2

lemma split_length_le (box : FreeBox) (item : LoadedItem) :
    (split_free_both box item).length ≤ 3 := by
  unfold split_free_both
  refine le_trans (List.length_filter_le _ _) ?_
  by_cases h1 : 0 < (box.x + box.l) - (item.x + item.l) <;>
    by_cases h2 : 0 < (box.y + box.w) - (item.y + item.w) <;>
      by_cases h3 : 0 < (box.z + box.h) - (item.z + item.h) <;>
        simp [h1, h2, h3]

lemma foldl_induction {α β : Type} {f : β → α → β} {P : β → Prop} :
    ∀ (l : List α) (init : β), P init → (∀ acc x, x ∈ l → P acc → P (f acc x)) →
      P (l.foldl f init)
  | [], _, h, _ => h
  | x :: xs, init, h, hstep =>
    foldl_induction xs (f init x) (hstep init x (List.mem_cons_self x xs) h)
      (fun acc y hy hP => hstep acc y (List.mem_cons_of_mem x hy) hP)

lemma mem_of_mem_uniqueAux : ∀ (l seen : List (ℚ × ℚ × ℚ)) (x : ℚ × ℚ × ℚ),
    x ∈ uniqueAux l seen → x ∈ l := by
  intro l
  induction l with
  | nil => intro seen x hx; simp [uniqueAux] at hx
  | cons c rest ih =>
    intro seen x hx
    rw [uniqueAux] at hx
    by_cases hc : roundKey c ∈ seen
    · rw [if_pos hc] at hx
      exact List.mem_cons_of_mem c (ih seen x hx)
    · rw [if_neg hc] at hx
      rcases List.mem_cons.mp hx with h | h
      · exact h ▸ List.mem_cons_self c rest
      · exact List.mem_cons_of_mem c (ih _ x h)

lemma uniqueAux_length_le : ∀ (l seen : List (ℚ × ℚ × ℚ)),
    (uniqueAux l seen).length ≤ l.length := by
  intro l
  induction l with
  | nil => intro seen; simp [uniqueAux]
  | cons c rest ih =>
    intro seen
    rw [uniqueAux]
    by_cases hc : roundKey c ∈ seen
    · rw [if_pos hc]
      exact le_trans (ih seen) (Nat.le_succ _)
    · rw [if_neg hc]
      simpa using Nat.succ_le_succ (ih (roundKey c :: seen))

lemma uniqueAux_eq_of_nodup : ∀ (l seen : List (ℚ × ℚ × ℚ)),
    (∀ c ∈ l, roundKey c ∉ seen) → (l.map roundKey).Nodup → uniqueAux l seen = l := by
  intro l
  induction l with
  | nil => intro seen _ _; rfl
  | cons c rest ih =>
    intro seen hseen hnd
    rw [uniqueAux, if_neg (hseen c (List.mem_cons_self c rest))]
    rw [List.map_cons, List.nodup_cons] at hnd
    congr 1
    refine ih (roundKey c :: seen) ?_ hnd.2
    intro d hd
    rw [List.mem_cons, not_or]
    refine ⟨?_, hseen d (List.mem_cons_of_mem c hd)⟩
    intro hkey
    exact hnd.1 (hkey ▸ List.mem_map_of_mem roundKey hd)

lemma orientationCandidates_prod {p : PalletSpec} {o : ℚ × ℚ × ℚ}
    (ho : o ∈ orientationCandidates p) : o.1 * o.2.1 * o.2.2 = p.l * p.w * p.h := by
  unfold orientationCandidates at ho
  simp only [List.mem_cons, List.not_mem_nil, or_false] at ho
  rcases ho with h | h | h | h | h | h <;> (subst h; ring)

lemma orientationCandidates_pos {p : PalletSpec} {o : ℚ × ℚ × ℚ}
    (hp : 0 < p.l ∧ 0 < p.w ∧ 0 < p.h) (ho : o ∈ orientationCandidates p) :
    0 < o.1 ∧ 0 < o.2.1 ∧ 0 < o.2.2 := by
  unfold orientationCandidates at ho
  simp only [List.mem_cons, List.not_mem_nil, or_false] at ho
  obtain ⟨h1, h2, h3⟩ := hp
  rcases ho with h | h | h | h | h | h <;> (subst h; exact ⟨by assumption, by assumption, by assumption⟩)

lemma stacksFor_le_maxBy (cap maxBy req : ℤ) : stacksFor cap maxBy req ≤ maxBy :=
  min_le_left _ _

lemma stacksFor_le_req (cap maxBy req : ℤ) : stacksFor cap maxBy req ≤ req :=
  le_trans (min_le_right _ _) (min_le_left _ _)

lemma lookupD_decrKey_ne {m : Missed} {pid q : String} {v : ℤ} (hne : q ≠ pid) :
    lookupD (decrKey m pid v) q = lookupD m q := by
  induction m with
  | nil => rfl
  | cons kv rest ih =>
    obtain ⟨k, x⟩ := kv
    rw [decrKey]
    by_cases hk : k = pid
    · rw [if_pos hk, lookupD, lookupD, if_neg (by rw [hk]; exact fun h => hne h.symm),
        if_neg (by rw [hk]; exact fun h => hne h.symm)]
    · rw [if_neg hk, lookupD, lookupD]
      by_cases hq : k = q
      · rw [if_pos hq, if_pos hq]
      · rw [if_neg hq, if_neg hq]
        exact ih

lemma lookupD_decrKey_self {m : Missed} {pid : String} {v : ℤ} (hm : pid ∈ keysOf m) :
    lookupD (decrKey m pid v) pid = lookupD m pid - v := by
  induction m with
  | nil => simp [keysOf] at hm
  | cons kv rest ih =>
    obtain ⟨k, x⟩ := kv
    rw [decrKey]
    by_cases hk : k = pid
    · rw [if_pos hk, lookupD, lookupD, if_pos hk, if_pos hk]
    · rw [if_neg hk, lookupD, lookupD, if_neg hk, if_neg hk]
      refine ih ?_
      rcases List.mem_cons.mp hm with h | h
      · exact absurd h.symm hk
      · exact h

lemma decrKey_keys (m : Missed) (pid : String) (v : ℤ) :
    keysOf (decrKey m pid v) = keysOf m := by
  induction m with
  | nil => rfl
  | cons kv rest ih =>
    obtain ⟨k, x⟩ := kv
    rw [decrKey]
    by_cases hk : k = pid
    · rw [if_pos hk]; rfl
    · rw [if_neg hk]
      simp only [keysOf, List.map_cons] at ih ⊢
      rw [ih]

lemma sumStacks_append (l : List LoadedItem) (it : LoadedItem) (pid : String) :
    sumStacks (l ++ [it]) pid
      = sumStacks l pid + (if it.pallet_id = pid then it.qty_in_stack else 0) := by
  unfold sumStacks
  rw [List.map_append, List.sum_append, List.map_singleton, List.sum_singleton]

lemma getD_mem_of_lt {l : List FreeBox} {i : ℕ} (h : i < l.length) :
    l.getD i fbDefault ∈ l := by
  rw [List.getD_eq_getElem?_getD, List.getElem?_eq_getElem h]
  exact List.getElem_mem h

lemma mem_keys_setKey_self (m : Missed) (pid : String) (v : ℤ) :
    pid ∈ keysOf (setKey m pid v) := by
  induction m with
  | nil => simp [setKey, keysOf]
  | cons kv rest ih =>
    obtain ⟨k, x⟩ := kv
    rw [setKey]
    by_cases hk : k = pid
    · rw [if_pos hk]
      simp [keysOf, hk]
    · rw [if_neg hk]
      simp only [keysOf, List.map_cons, List.mem_cons]
      exact Or.inr ih

lemma mem_keys_setKey_of {m : Missed} {q : String} (pid : String) (v : ℤ)
    (h : q ∈ keysOf m) : q ∈ keysOf (setKey m pid v) := by
  induction m with
  | nil => simp [keysOf] at h
  | cons kv rest ih =>
    obtain ⟨k, x⟩ := kv
    rw [setKey]
    by_cases hk : k = pid
    · rw [if_pos hk]
      simpa [keysOf] using h
    · rw [if_neg hk]
      simp only [keysOf, List.map_cons, List.mem_cons] at h ⊢
      rcases h with h | h
      · exact Or.inl h
      · exact Or.inr (ih h)

lemma buildMissed_aux : ∀ (l : List PalletSpec) (m : Missed),
    (∀ q, q ∈ keysOf m → q ∈ keysOf (l.foldl (fun m p => setKey m p.pid p.qty) m)) ∧
    (∀ p ∈ l, p.pid ∈ keysOf (l.foldl (fun m p => setKey m p.pid p.qty) m)) := by
  intro l
  induction l with
  | nil => exact fun m => ⟨fun q h => h, fun p hp => absurd hp (List.not_mem_nil p)⟩
  | cons p rest ih =>
    intro m
    rw [List.foldl_cons]
    constructor
    · intro q hq
      exact (ih _).1 q (mem_keys_setKey_of p.pid p.qty hq)
    · intro p2 hp2
      rcases List.mem_cons.mp hp2 with h | h
      · subst h
        exact (ih _).1 p2.pid (mem_keys_setKey_self m p2.pid p2.qty)
      · exact (ih _).2 p2 h

lemma buildMissed_keys {ps : List PalletSpec} {p : PalletSpec} (hp : p ∈ ps) :
    p.pid ∈ keysOf (buildMissed ps) :=
  (buildMissed_aux ps []).2 p hp

lemma setKey_fresh {m : Missed} {pid : String} (v : ℤ) (h : pid ∉ keysOf m) :
    setKey m pid v = m ++ [(pid, v)] := by
  induction m with
  | nil => rfl
  | cons kv rest ih =>
    obtain ⟨k, x⟩ := kv
    rw [setKey]
    simp only [keysOf, List.map_cons, List.mem_cons, not_or] at h
    rw [if_neg (fun he => h.1 he.symm), List.cons_append]
    congr 1
    exact ih h.2

lemma buildMissed_nodup : ∀ (l : List PalletSpec) (m : Missed),
    (∀ p ∈ l, p.pid ∉ keysOf m) → (l.map PalletSpec.pid).Nodup →
    l.foldl (fun m p => setKey m p.pid p.qty) m = m ++ l.map (fun p => (p.pid, p.qty)) := by
  intro l
  induction l with
  | nil => intro m _ _; simp
  | cons p rest ih =>
    intro m hfresh hnd
    rw [List.foldl_cons, setKey_fresh p.qty (hfresh p (List.mem_cons_self p rest))]
    rw [List.map_cons, List.nodup_cons] at hnd
    rw [ih (m ++ [(p.pid, p.qty)]) ?_ hnd.2]
    · simp
    · intro p2 hp2
      have hk : keysOf (m ++ [(p.pid, p.qty)]) = keysOf m ++ [p.pid] := by
        simp [keysOf]
      rw [hk, List.mem_append, List.mem_singleton]
      rintro (h | h)
      · exact hfresh p2 (List.mem_cons_of_mem p hp2) h
      · exact hnd.1 (h ▸ List.mem_map_of_mem PalletSpec.pid hp2)

lemma lookupD_map_pair : ∀ (l : List PalletSpec), (l.map PalletSpec.pid).Nodup →
    ∀ p ∈ l, lookupD (l.map (fun p => (p.pid, p.qty))) p.pid = p.qty := by
  intro l
  induction l with
  | nil => intro _ p hp; exact absurd hp (List.not_mem_nil p)
  | cons q rest ih =>
    intro hnd p hp
    rw [List.map_cons, List.nodup_cons] at hnd
    rw [List.map_cons, lookupD]
    rcases List.mem_cons.mp hp with h | h
    · subst h
      rw [if_pos rfl]
    · rw [if_neg ?_]
      · exact ih hnd.2 p h
      · intro he
        exact hnd.1 (he ▸ List.mem_map_of_mem PalletSpec.pid h)

lemma buildMissed_lookup {ps : List PalletSpec} (hnd : (ps.map PalletSpec.pid).Nodup) :
    ∀ p ∈ ps, lookupD (buildMissed ps) p.pid = p.qty := by
  intro p hp
  unfold buildMissed
  rw [buildMissed_nodup ps [] (fun p _ h => absurd h (List.not_mem_nil p.pid)) hnd,
    List.nil_append]
  exact lookupD_map_pair ps hnd p hp

lemma bestCandidate_spec {ps : List PalletSpec} {m : Missed} {fb : FreeBox} {c : Cand}
    (h : bestCandidate ps m fb = some c) : CandSpec ps m fb c := by
  have main : 0 ≤ (ps.foldl (considerPallet m fb) (none, 0)).2 ∧
      ∀ cc, (ps.foldl (considerPallet m fb) (none, 0)).1 = some cc → CandSpec ps m fb cc := by
    refine foldl_induction
      (P := fun acc : Option Cand × ℚ => 0 ≤ acc.2 ∧ ∀ cc, acc.1 = some cc → CandSpec ps m fb cc)
      ps (none, 0) ⟨le_refl 0, ?_⟩ ?_
    · intro cc hcc
      exact absurd hcc (by simp)
    · intro acc pal hpal hP
      unfold considerPallet
      by_cases hreq : lookupD m pal.pid ≤ 0
      · rw [if_pos hreq]
        exact hP
      · rw [if_neg hreq]
        refine foldl_induction
          (P := fun acc : Option Cand × ℚ =>
            0 ≤ acc.2 ∧ ∀ cc, acc.1 = some cc → CandSpec ps m fb cc)
          (unique_orientations pal) acc hP ?_
        intro acc2 o ho hP2
        unfold considerOrient
        by_cases hfit : o.1 ≤ fb.l ∧ o.2.1 ≤ fb.w ∧ o.2.2 ≤ fb.h
        · rw [if_pos hfit]
          by_cases hcnt : stacksFor STACK_MAX ⌊fb.h / o.2.2⌋ (lookupD m pal.pid) ≤ 0
          · rw [if_pos hcnt]
            exact hP2
          · rw [if_neg hcnt]
            by_cases hutil :
                acc2.2 < o.1 * o.2.1 * o.2.2 *
                  ((stacksFor STACK_MAX ⌊fb.h / o.2.2⌋ (lookupD m pal.pid) : ℤ) : ℚ) / fb.volume
            · rw [if_pos hutil]
              have hupos : (0:ℚ) < o.1 * o.2.1 * o.2.2 *
                  ((stacksFor STACK_MAX ⌊fb.h / o.2.2⌋ (lookupD m pal.pid) : ℤ) : ℚ) / fb.volume :=
                lt_of_le_of_lt hP2.1 hutil
              have hvol : 0 < o.1 * o.2.1 * o.2.2 *
                  ((stacksFor STACK_MAX ⌊fb.h / o.2.2⌋ (lookupD m pal.pid) : ℤ) : ℚ) := by
                rcases div_pos_iff.mp hupos with ⟨hn, _⟩ | ⟨_, hd⟩
                · exact hn
                · exact absurd hd (not_lt.mpr (volume_nonneg fb))
              have hcnt1 : 1 ≤ stacksFor STACK_MAX ⌊fb.h / o.2.2⌋ (lookupD m pal.pid) := by
                omega
              have hcntQ : (0:ℚ) <
                  ((stacksFor STACK_MAX ⌊fb.h / o.2.2⌋ (lookupD m pal.pid) : ℤ) : ℚ) := by
                exact_mod_cast lt_of_lt_of_le Int.zero_lt_one hcnt1
              have hprod : (0:ℚ) < o.1 * o.2.1 * o.2.2 := by
                rcases mul_pos_iff.mp hvol with ⟨hn, _⟩ | ⟨_, hd⟩
                · exact hn
                · exact absurd hcntQ (not_lt.mpr hd.le)
              constructor
              · exact hupos.le
              · intro cc hcc
                simp only [Option.some.injEq] at hcc
                subst hcc
                refine ⟨hpal, rfl, mem_of_mem_uniqueAux _ _ _ ho, hfit.1, hfit.2.1, hfit.2.2, hcnt1,
                  stacksFor_le_maxBy _ _ _, stacksFor_le_req _ _ _,
                  (by omega : 0 < lookupD m pal.pid), hprod⟩
            · rw [if_neg hutil]
              exact hP2
        · rw [if_neg hfit]
          exact hP2
  exact main.2 c h

lemma scanLoop_stop {ps : List PalletSpec} {cid : String} {fuel : ℕ} {st : St} {i : ℕ}
    (h : ¬(i < st.free.length ∧ 0 < st.total_left)) :
    scanLoop ps cid (fuel + 1) st i = some st := by
  rw [scanLoop, if_neg h]

lemma scanLoop_skip {ps : List PalletSpec} {cid : String} {fuel : ℕ} {st : St} {i : ℕ}
    (h : i < st.free.length ∧ 0 < st.total_left)
    (hbc : bestCandidate ps st.missed (st.free.getD i fbDefault) = none) :
    scanLoop ps cid (fuel + 1) st i = scanLoop ps cid fuel st (i + 1) := by
  rw [scanLoop, if_pos h]
  simp only [hbc]

lemma scanLoop_collide {ps : List PalletSpec} {cid : String} {fuel : ℕ} {st : St} {i : ℕ}
    {c : Cand} (h : i < st.free.length ∧ 0 < st.total_left)
    (hbc : bestCandidate ps st.missed (st.free.getD i fbDefault) = some c)
    (hcol : collidesWith st.loaded cid c.h (mkLoaded cid st (st.free.getD i fbDefault) c) = true) :
    scanLoop ps cid (fuel + 1) st i = scanLoop ps cid fuel st (i + 1) := by
  rw [scanLoop, if_pos h]
  simp only [hbc, hcol, if_true]

lemma scanLoop_commit {ps : List PalletSpec} {cid : String} {fuel : ℕ} {st : St} {i : ℕ}
    {c : Cand} (h : i < st.free.length ∧ 0 < st.total_left)
    (hbc : bestCandidate ps st.missed (st.free.getD i fbDefault) = some c)
    (hcol : collidesWith st.loaded cid c.h (mkLoaded cid st (st.free.getD i fbDefault) c) = false) :
    scanLoop ps cid (fuel + 1) st i = scanLoop ps cid fuel (commitSt cid st i c) i := by
  rw [scanLoop, if_pos h]
  simp only [hbc, hcol, Bool.false_eq_true, if_false]

lemma commitSt_facts (cid : String) (st : St) (i : ℕ) (c : Cand) :
    (commitSt cid st i c).loaded = st.loaded ++ [mkLoaded cid st (st.free.getD i fbDefault) c] ∧
    (commitSt cid st i c).missed = decrKey st.missed c.pid c.stackCnt ∧
    (commitSt cid st i c).total_left = st.total_left - c.stackCnt ∧
    (commitSt cid st i c).free
      = st.free.eraseIdx i ++
          split_free_both (st.free.getD i fbDefault)
            (mkLoaded cid st (st.free.getD i fbDefault) c) ∧
    (commitSt cid st i c).placed = true :=
  ⟨rfl, rfl, rfl, rfl, rfl⟩

lemma scanLoop_isSome (ps : List PalletSpec) (cid : String) :
    ∀ fuel (st : St) (i : ℕ), 3 * st.total_left.toNat + (st.free.length - i) < fuel →
      (scanLoop ps cid fuel st i).isSome = true := by
  intro fuel
  induction fuel with
  | zero => intro st i h; omega
  | succ n ih =>
    intro st i h
    by_cases hc : i < st.free.length ∧ 0 < st.total_left
    · rcases hbc : bestCandidate ps st.missed (st.free.getD i fbDefault) with _ | c
      · rw [scanLoop_skip hc hbc]
        refine ih st (i + 1) ?_
        omega
      · rcases hcol : collidesWith st.loaded cid c.h
            (mkLoaded cid st (st.free.getD i fbDefault) c) with _ | _
        · rw [scanLoop_commit hc hbc hcol]
          have hcnt : 1 ≤ c.stackCnt := (bestCandidate_spec hbc).2.2.2.2.2.2.1
          have hlen : (commitSt cid st i c).free.length ≤ st.free.length + 2 := by
            rw [(commitSt_facts cid st i c).2.2.2.1, List.length_append, List.length_eraseIdx]
            have := split_length_le (st.free.getD i fbDefault)
              (mkLoaded cid st (st.free.getD i fbDefault) c)
            rw [if_pos hc.1]
            omega
          have htl : (commitSt cid st i c).total_left = st.total_left - c.stackCnt :=
            (commitSt_facts cid st i c).2.2.1
          refine ih (commitSt cid st i c) i ?_
          rw [htl]
          omega
        · rw [scanLoop_collide hc hbc hcol]
          refine ih st (i + 1) ?_
          omega
    · rw [scanLoop_stop hc]
      rfl

lemma scanLoop_tl (ps : List PalletSpec) (cid : String) :
    ∀ fuel (st : St) (i : ℕ) (st2 : St), scanLoop ps cid fuel st i = some st2 →
      st2.total_left ≤ st.total_left ∧
        (st2.placed = st.placed ∨ st2.total_left < st.total_left) := by
  intro fuel
  induction fuel with
  | zero => intro st i st2 h; exact absurd h (by rw [scanLoop]; simp)
  | succ n ih =>
    intro st i st2 h
    by_cases hc : i < st.free.length ∧ 0 < st.total_left
    · rcases hbc : bestCandidate ps st.missed (st.free.getD i fbDefault) with _ | c
      · rw [scanLoop_skip hc hbc] at h
        exact ih st (i + 1) st2 h
      · rcases hcol : collidesWith st.loaded cid c.h
            (mkLoaded cid st (st.free.getD i fbDefault) c) with _ | _
        · rw [scanLoop_commit hc hbc hcol] at h
          have hcnt : 1 ≤ c.stackCnt := (bestCandidate_spec hbc).2.2.2.2.2.2.1
          have htl : (commitSt cid st i c).total_left = st.total_left - c.stackCnt :=
            (commitSt_facts cid st i c).2.2.1
          obtain ⟨h1, _⟩ := ih (commitSt cid st i c) i st2 h
          rw [htl] at h1
          exact ⟨by omega, Or.inr (by omega)⟩
        · rw [scanLoop_collide hc hbc hcol] at h
          exact ih st (i + 1) st2 h
    · rw [scanLoop_stop hc] at h
      cases h
      exact ⟨le_refl _, Or.inl rfl⟩

lemma passLoop_stop {ps : List PalletSpec} {cid : String} {fuel : ℕ} {st : St}
    (h : ¬(st.placed ∧ 0 < st.total_left)) :
    passLoop ps cid (fuel + 1) st = some st := by
  rw [passLoop, if_neg h]

lemma passLoop_step {ps : List PalletSpec} {cid : String} {fuel : ℕ} {st st2 : St}
    (h : st.placed ∧ 0 < st.total_left)
    (hscan : scanLoop ps cid (scanFuel (sortSt st)) (sortSt st) 0 = some st2) :
    passLoop ps cid (fuel + 1) st = passLoop ps cid fuel (rowBump st2) := by
  rw [passLoop, if_pos h]
  simp only [hscan]

lemma sortSt_facts (st : St) :
    (sortSt st).loaded = st.loaded ∧ (sortSt st).missed = st.missed ∧
    (sortSt st).total_left = st.total_left ∧ (sortSt st).placed = false ∧
    (sortSt st).free = sortFree st.free :=
  ⟨rfl, rfl, rfl, rfl, rfl⟩

lemma rowBump_facts (st : St) :
    (rowBump st).loaded = st.loaded ∧ (rowBump st).missed = st.missed ∧
    (rowBump st).total_left = st.total_left ∧ (rowBump st).placed = st.placed ∧
    (rowBump st).free = st.free := by
  unfold rowBump
  by_cases h : st.placed
  · rw [if_pos h]
    exact ⟨rfl, rfl, rfl, rfl, rfl⟩
  · rw [if_neg h]
    exact ⟨rfl, rfl, rfl, rfl, rfl⟩

lemma passLoop_isSome (ps : List PalletSpec) (cid : String) :
    ∀ fuel (st : St), st.total_left.toNat < fuel → (passLoop ps cid fuel st).isSome = true := by
  intro fuel
  induction fuel with
  | zero => intro st h; omega
  | succ n ih =>
    intro st h
    by_cases hc : st.placed ∧ 0 < st.total_left
    · have hscan : (scanLoop ps cid (scanFuel (sortSt st)) (sortSt st) 0).isSome = true := by
        refine scanLoop_isSome ps cid _ _ 0 ?_
        unfold scanFuel
        omega
      obtain ⟨st2, hst2⟩ := Option.isSome_iff_exists.mp hscan
      rw [passLoop_step hc hst2]
      have hmono := scanLoop_tl ps cid _ _ _ _ hst2
      rw [(sortSt_facts st).2.2.1] at hmono
      have hb := rowBump_facts st2
      rcases hmono.2 with hp | hlt
      · rw [(sortSt_facts st).2.2.2.1] at hp
        have : passLoop ps cid n (rowBump st2) = some (rowBump st2) := by
          have hn : 0 < n := by omega
          obtain ⟨n', rfl⟩ := Nat.exists_eq_succ_of_ne_zero (Nat.pos_iff_ne_zero.mp hn)
          refine passLoop_stop ?_
          rw [hb.2.2.2.1, hp]
          simp
        rw [this]
        rfl
      · refine ih (rowBump st2) ?_
        rw [hb.2.2.1]
        omega
    · rw [passLoop_stop hc]
      rfl

lemma containersLoop_isSome (ps : List PalletSpec) :
    ∀ (insts : List CInst) (acc : List LoadedItem × Missed × ℤ),
      (containersLoop ps insts acc).isSome = true := by
  intro insts
  induction insts with
  | nil => intro acc; rfl
  | cons ci rest ih =>
    intro acc
    obtain ⟨c, cid⟩ := ci
    obtain ⟨loaded, m, tl⟩ := acc
    rw [containersLoop]
    by_cases htl : tl ≤ 0
    · rw [if_pos htl]
      rfl
    · rw [if_neg htl]
      have hpass : (passLoop ps cid (tl.toNat + 1)
          ⟨initFree c, loaded, m, tl, 1, 1, true⟩).isSome = true :=
        passLoop_isSome ps cid _ _ (Nat.lt_succ_self tl.toNat)
      obtain ⟨st, hst⟩ := Option.isSome_iff_exists.mp hpass
      rw [hst]
      exact ih _

lemma pack_isSome (cs : List ContainerSpec) (ps : List PalletSpec) :
    (pack cs ps).isSome = true := by
  have h := containersLoop_isSome (sortPallets ps) (containerInstances cs)
    ([], buildMissed ps, sumValues (buildMissed ps))
  obtain ⟨⟨loaded, m, tl⟩, hout⟩ := Option.isSome_iff_exists.mp h
  simp only [pack, hout]
  rfl

lemma FromPallet_mono {ps : List PalletSpec} {m m2 : Missed} {it : LoadedItem}
    (hle : ∀ pid, lookupD m2 pid ≤ lookupD m pid) (h : FromPallet ps m2 it) :
    FromPallet ps m it := by
  obtain ⟨h1, pal, hmem, hpid, hprod, hpos⟩ := h
  exact ⟨h1, pal, hmem, hpid, hprod, lt_of_lt_of_le hpos (hle pal.pid)⟩

lemma commit_lookupD (cid : String) (st : St) (i : ℕ) {c : Cand}
    (hpidkeys : c.pid ∈ keysOf st.missed) :
    ∀ pid, lookupD (commitSt cid st i c).missed pid
      = lookupD st.missed pid - (if pid = c.pid then c.stackCnt else 0) := by
  intro pid
  rw [(commitSt_facts cid st i c).2.1]
  by_cases hp : pid = c.pid
  · rw [if_pos hp, hp, lookupD_decrKey_self hpidkeys]
  · rw [if_neg hp, lookupD_decrKey_ne hp, sub_zero]

lemma commit_sumStacks (cid : String) (st : St) (i : ℕ) (c : Cand) :
    ∀ pid, sumStacks (commitSt cid st i c).loaded pid
      = sumStacks st.loaded pid + (if pid = c.pid then c.stackCnt else 0) := by
  intro pid
  rw [(commitSt_facts cid st i c).1, sumStacks_append]
  by_cases hp : pid = c.pid
  · rw [if_pos hp, if_pos (by rw [hp]; rfl)]
    rfl
  · rw [if_neg hp, if_neg (by simpa [mkLoaded] using fun he => hp he.symm)]

lemma scanLoop_cons (ps : List PalletSpec) (cid : String) :
    ∀ fuel (st : St) (i : ℕ) (st2 : St),
      (∀ p ∈ ps, p.pid ∈ keysOf st.missed) →
      scanLoop ps cid fuel st i = some st2 →
      keysOf st2.missed = keysOf st.missed ∧
      (∀ pid, sumStacks st2.loaded pid + lookupD st2.missed pid
          = sumStacks st.loaded pid + lookupD st.missed pid) ∧
      (∀ pid, lookupD st2.missed pid ≤ lookupD st.missed pid) ∧
      (∀ it ∈ st2.loaded, it ∈ st.loaded ∨ NewItem ps cid st.missed it) := by
  intro fuel
  induction fuel with
  | zero => intro st i st2 _ h; exact absurd h (by rw [scanLoop]; simp)
  | succ n ih =>
    intro st i st2 hkeys h
    by_cases hc : i < st.free.length ∧ 0 < st.total_left
    · rcases hbc : bestCandidate ps st.missed (st.free.getD i fbDefault) with _ | c
      · rw [scanLoop_skip hc hbc] at h
        exact ih st (i + 1) st2 hkeys h
      · rcases hcol : collidesWith st.loaded cid c.h
            (mkLoaded cid st (st.free.getD i fbDefault) c) with _ | _
        · rw [scanLoop_commit hc hbc hcol] at h
          have hspec := bestCandidate_spec hbc
          have hcnt : 1 ≤ c.stackCnt := hspec.2.2.2.2.2.2.1
          have hpidkeys : c.pid ∈ keysOf st.missed := by
            rw [hspec.2.1]
            exact hkeys c.pal hspec.1
          have hkeys2 : keysOf (commitSt cid st i c).missed = keysOf st.missed := by
            rw [(commitSt_facts cid st i c).2.1, decrKey_keys]
          obtain ⟨ihk, ihsum, ihle, ihit⟩ := ih (commitSt cid st i c) i st2
            (fun p hp => hkeys2 ▸ hkeys p hp) h
          have hD := commit_lookupD cid st i hpidkeys
          have hS := commit_sumStacks cid st i c
          refine ⟨by rw [ihk, hkeys2], ?_, ?_, ?_⟩
          · intro pid
            rw [ihsum pid, hS pid, hD pid]
            omega
          · intro pid
            have := ihle pid
            rw [hD pid] at this
            have : lookupD st2.missed pid
                ≤ lookupD st.missed pid - (if pid = c.pid then c.stackCnt else 0) := this
            by_cases hp : pid = c.pid
            · rw [if_pos hp] at this
              omega
            · rw [if_neg hp] at this
              omega
          · intro it hit
            rcases ihit it hit with hmem | hnew
            · rw [(commitSt_facts cid st i c).1] at hmem
              rcases List.mem_append.mp hmem with hmem | hmem
              · exact Or.inl hmem
              · rw [List.mem_singleton] at hmem
                subst hmem
                refine Or.inr ⟨rfl, hcnt, c.pal, hspec.1, hspec.2.1, ?_, ?_⟩
                · have := orientationCandidates_prod hspec.2.2.1
                  have hprod := hspec.2.2.2.2.2.2.2.2.2.2
                  calc (0:ℚ) < c.l * c.w * c.h := hprod
                    _ = c.pal.l * c.pal.w * c.pal.h := this
                · exact hspec.2.2.2.2.2.2.2.2.2.1
            · refine Or.inr ⟨hnew.1, FromPallet_mono ?_ hnew.2⟩
              intro pid
              rw [hD pid]
              by_cases hp : pid = c.pid
              · rw [if_pos hp]
                omega
              · rw [if_neg hp]
                omega
        · rw [scanLoop_collide hc hbc hcol] at h
          exact ih st (i + 1) st2 hkeys h
    · rw [scanLoop_stop hc] at h
      cases h
      exact ⟨rfl, fun _ => rfl, fun _ => le_refl _, fun it hit => Or.inl hit⟩

lemma passLoop_cons (ps : List PalletSpec) (cid : String) :
    ∀ fuel (st : St) (st2 : St),
      (∀ p ∈ ps, p.pid ∈ keysOf st.missed) →
      passLoop ps cid fuel st = some st2 →
      keysOf st2.missed = keysOf st.missed ∧
      (∀ pid, sumStacks st2.loaded pid + lookupD st2.missed pid
          = sumStacks st.loaded pid + lookupD st.missed pid) ∧
      (∀ pid, lookupD st2.missed pid ≤ lookupD st.missed pid) ∧
      (∀ it ∈ st2.loaded, it ∈ st.loaded ∨ NewItem ps cid st.missed it) := by
  intro fuel
  induction fuel with
  | zero => intro st st2 _ h; exact absurd h (by rw [passLoop]; simp)
  | succ n ih =>
    intro st st2 hkeys h
    by_cases hc : st.placed ∧ 0 < st.total_left
    · have hscan : (scanLoop ps cid (scanFuel (sortSt st)) (sortSt st) 0).isSome = true := by
        refine scanLoop_isSome ps cid _ _ 0 ?_
        unfold scanFuel
        omega
      obtain ⟨stm, hstm⟩ := Option.isSome_iff_exists.mp hscan
      rw [passLoop_step hc hstm] at h
      obtain ⟨sck, scsum, scle, scit⟩ := scanLoop_cons ps cid _ _ _ _
        (by rw [(sortSt_facts st).2.1]; exact hkeys) hstm
      rw [(sortSt_facts st).2.1] at sck scsum scle scit
      rw [(sortSt_facts st).1] at scsum scit
      have hb := rowBump_facts stm
      obtain ⟨ihk, ihsum, ihle, ihit⟩ := ih (rowBump stm) st2
        (by rw [hb.2.1, sck]; exact hkeys) h
      rw [hb.2.1] at ihk ihsum ihle ihit
      rw [hb.1] at ihsum ihit
      refine ⟨by rw [ihk, sck], ?_, ?_, ?_⟩
      · intro pid
        rw [ihsum pid, scsum pid]
      · intro pid
        exact le_trans (ihle pid) (scle pid)
      · intro it hit
        rcases ihit it hit with hmem | hnew
        · rcases scit it hmem with hmem2 | hnew2
          · exact Or.inl hmem2
          · exact Or.inr hnew2
        · exact Or.inr ⟨hnew.1, FromPallet_mono scle hnew.2⟩
    · rw [passLoop_stop hc] at h
      cases h
      exact ⟨rfl, fun _ => rfl, fun _ => le_refl _, fun it hit => Or.inl hit⟩

lemma containersLoop_cons (ps : List PalletSpec) :
    ∀ (insts : List CInst) (loaded : List LoadedItem) (m : Missed) (tl : ℤ)
      (out : List LoadedItem × Missed × ℤ),
      (∀ p ∈ ps, p.pid ∈ keysOf m) →
      containersLoop ps insts (loaded, m, tl) = some out →
      keysOf out.2.1 = keysOf m ∧
      (∀ pid, sumStacks out.1 pid + lookupD out.2.1 pid
          = sumStacks loaded pid + lookupD m pid) ∧
      (∀ pid, lookupD out.2.1 pid ≤ lookupD m pid) ∧
      (∀ it ∈ out.1, it ∈ loaded ∨ FromPallet ps m it) := by
  intro insts
  induction insts with
  | nil =>
    intro loaded m tl out _ h
    rw [containersLoop] at h
    cases h
    exact ⟨rfl, fun _ => rfl, fun _ => le_refl _, fun it hit => Or.inl hit⟩
  | cons ci rest ih =>
    intro loaded m tl out hkeys h
    obtain ⟨c, cid⟩ := ci
    rw [containersLoop] at h
    by_cases htl : tl ≤ 0
    · rw [if_pos htl] at h
      cases h
      exact ⟨rfl, fun _ => rfl, fun _ => le_refl _, fun it hit => Or.inl hit⟩
    · rw [if_neg htl] at h
      have hpass : (passLoop ps cid (tl.toNat + 1)
          ⟨initFree c, loaded, m, tl, 1, 1, true⟩).isSome = true :=
        passLoop_isSome ps cid _ _ (Nat.lt_succ_self tl.toNat)
      obtain ⟨st, hst⟩ := Option.isSome_iff_exists.mp hpass
      rw [hst] at h
      obtain ⟨pk, psum, ple, pit⟩ := passLoop_cons ps cid _ _ _ hkeys hst
      obtain ⟨ihk, ihsum, ihle, ihit⟩ := ih st.loaded st.missed st.total_left out
        (fun p hp => pk ▸ hkeys p hp) h
      refine ⟨by rw [ihk, pk], ?_, ?_, ?_⟩
      · intro pid
        rw [ihsum pid, psum pid]
      · intro pid
        exact le_trans (ihle pid) (ple pid)
      · intro it hit
        rcases ihit it hit with hmem | hnew
        · rcases pit it hmem with hmem2 | hnew2
          · exact Or.inl hmem2
          · exact Or.inr hnew2.2
        · exact Or.inr (FromPallet_mono ple hnew)

lemma pack_dest {cs : List ContainerSpec} {ps : List PalletSpec}
    {r : List LoadedItem × Missed} (h : pack cs ps = some r) :
    ∃ tl, containersLoop (sortPallets ps) (containerInstances cs)
      ([], buildMissed ps, sumValues (buildMissed ps)) = some (r.1, r.2, tl) := by
  rcases hout : containersLoop (sortPallets ps) (containerInstances cs)
      ([], buildMissed ps, sumValues (buildMissed ps)) with _ | out
  · rw [pack, hout] at h
    exact absurd h (by simp)
  · obtain ⟨loaded, m, tl⟩ := out
    simp only [pack, hout] at h
    cases h
    exact ⟨tl, rfl⟩

lemma split_mem_cases {box : FreeBox} {item : LoadedItem} {b : FreeBox}
    (hb : b ∈ split_free_both box item) :
    0 < b.volume ∧
    (b = ⟨item.x + item.l, box.y, box.z, (box.x + box.l) - (item.x + item.l), box.w, box.h⟩ ∨
     b = ⟨box.x, item.y + item.w, box.z, box.l, (box.y + box.w) - (item.y + item.w), box.h⟩ ∨
     b = ⟨box.x, box.y, item.z + item.h, box.l, box.w, (box.z + box.h) - (item.z + item.h)⟩) := by
  unfold split_free_both at hb
  rw [List.mem_filter] at hb
  refine ⟨of_decide_eq_true hb.2, ?_⟩
  have hm := hb.1
  simp only [List.mem_append] at hm
  rcases hm with (hm | hm) | hm
  · by_cases h1 : 0 < (box.x + box.l) - (item.x + item.l)
    · rw [if_pos h1] at hm
      exact Or.inl (List.mem_singleton.mp hm)
    · rw [if_neg h1] at hm
      exact absurd hm (List.not_mem_nil b)
  · by_cases h2 : 0 < (box.y + box.w) - (item.y + item.w)
    · rw [if_pos h2] at hm
      exact Or.inr (Or.inl (List.mem_singleton.mp hm))
    · rw [if_neg h2] at hm
      exact absurd hm (List.not_mem_nil b)
  · by_cases h3 : 0 < (box.z + box.h) - (item.z + item.h)
    · rw [if_pos h3] at hm
      exact Or.inr (Or.inr (List.mem_singleton.mp hm))
    · rw [if_neg h3] at hm
      exact absurd hm (List.not_mem_nil b)

lemma split_BoxIn {c : ContainerSpec} {box : FreeBox} {item : LoadedItem}
    (hb : BoxIn c box) (hx : item.x = box.x) (hy : item.y = box.y) (hz : item.z = box.z)
    (hl : 0 ≤ item.l) (hw : 0 ≤ item.w) (hh : 0 ≤ item.h) :
    ∀ b ∈ split_free_both box item, BoxIn c b := by
  intro b hbm
  obtain ⟨hvol, hcases⟩ := split_mem_cases hbm
  unfold BoxIn at hb ⊢
  obtain ⟨h1, h2, h3, h4, h5, h6, h7, h8, h9⟩ := hb
  rcases hcases with rfl | rfl | rfl <;> rw [volume_pos_iff] at hvol <;> dsimp only at hvol ⊢
  · exact ⟨by linarith, hvol.1, by linarith, h4, hvol.2.1, h6, h7, hvol.2.2, h9⟩
  · exact ⟨h1, hvol.1, h3, by linarith, hvol.2.1, by linarith, h7, hvol.2.2, h9⟩
  · exact ⟨h1, hvol.1, h3, h4, hvol.2.1, h6, by linarith, hvol.2.2, by linarith⟩

lemma scanLoop_posvol (ps : List PalletSpec) (cid : String) :
    ∀ fuel (st : St) (i : ℕ) (st2 : St),
      (∀ b ∈ st.free, 0 < b.volume) →
      scanLoop ps cid fuel st i = some st2 →
      ∀ b ∈ st2.free, 0 < b.volume := by
  intro fuel
  induction fuel with
  | zero => intro st i st2 _ h; exact absurd h (by rw [scanLoop]; simp)
  | succ n ih =>
    intro st i st2 hfree h
    by_cases hc : i < st.free.length ∧ 0 < st.total_left
    · rcases hbc : bestCandidate ps st.missed (st.free.getD i fbDefault) with _ | c
      · rw [scanLoop_skip hc hbc] at h
        exact ih st (i + 1) st2 hfree h
      · rcases hcol : collidesWith st.loaded cid c.h
            (mkLoaded cid st (st.free.getD i fbDefault) c) with _ | _
        · rw [scanLoop_commit hc hbc hcol] at h
          refine ih (commitSt cid st i c) i st2 ?_ h
          intro b hbm
          rw [(commitSt_facts cid st i c).2.2.2.1] at hbm
          rcases List.mem_append.mp hbm with hbm | hbm
          · exact hfree b (List.eraseIdx_subset st.free i hbm)
          · exact split_mem_volume_pos b hbm
        · rw [scanLoop_collide hc hbc hcol] at h
          exact ih st (i + 1) st2 hfree h
    · rw [scanLoop_stop hc] at h
      cases h
      exact hfree

lemma passLoop_posvol (ps : List PalletSpec) (cid : String) :
    ∀ fuel (st : St) (st2 : St),
      (∀ b ∈ st.free, 0 < b.volume) →
      passLoop ps cid fuel st = some st2 →
      ∀ b ∈ st2.free, 0 < b.volume := by
  intro fuel
  induction fuel with
  | zero => intro st st2 _ h; exact absurd h (by rw [passLoop]; simp)
  | succ n ih =>
    intro st st2 hfree h
    by_cases hc : st.placed ∧ 0 < st.total_left
    · have hscan : (scanLoop ps cid (scanFuel (sortSt st)) (sortSt st) 0).isSome = true := by
        refine scanLoop_isSome ps cid _ _ 0 ?_
        unfold scanFuel
        omega
      obtain ⟨stm, hstm⟩ := Option.isSome_iff_exists.mp hscan
      rw [passLoop_step hc hstm] at h
      have hsorted : ∀ b ∈ (sortSt st).free, 0 < b.volume := by
        intro b hbm
        rw [(sortSt_facts st).2.2.2.2] at hbm
        exact hfree b ((List.mem_insertionSort freeLe).mp hbm)
      have hstm2 := scanLoop_posvol ps cid _ _ _ _ hsorted hstm
      refine ih (rowBump stm) st2 ?_ h
      rw [(rowBump_facts stm).2.2.2.2]
      exact hstm2
    · rw [passLoop_stop hc] at h
      cases h
      exact hfree

lemma scanLoop_geom (ps : List PalletSpec) (cid : String) (c0 : ContainerSpec)
    (hps : ∀ p ∈ ps, 0 < p.l ∧ 0 < p.w ∧ 0 < p.h) :
    ∀ fuel (st : St) (i : ℕ) (st2 : St),
      (∀ b ∈ st.free, BoxIn c0 b) →
      scanLoop ps cid fuel st i = some st2 →
      (∀ b ∈ st2.free, BoxIn c0 b) ∧
      (∀ it ∈ st2.loaded, it ∈ st.loaded ∨ (it.container_id = cid ∧ ItemIn c0 it)) := by
  intro fuel
  induction fuel with
  | zero => intro st i st2 _ h; exact absurd h (by rw [scanLoop]; simp)
  | succ n ih =>
    intro st i st2 hfree h
    by_cases hc : i < st.free.length ∧ 0 < st.total_left
    · rcases hbc : bestCandidate ps st.missed (st.free.getD i fbDefault) with _ | c
      · rw [scanLoop_skip hc hbc] at h
        exact ih st (i + 1) st2 hfree h
      · rcases hcol : collidesWith st.loaded cid c.h
            (mkLoaded cid st (st.free.getD i fbDefault) c) with _ | _
        · rw [scanLoop_commit hc hbc hcol] at h
          have hspec := bestCandidate_spec hbc
          have hfb : BoxIn c0 (st.free.getD i fbDefault) := hfree _ (getD_mem_of_lt hc.1)
          have hdims := orientationCandidates_pos (hps c.pal hspec.1) hspec.2.2.1
          have hcnt : 1 ≤ c.stackCnt := hspec.2.2.2.2.2.2.1
          have hcntQ : (1:ℚ) ≤ (c.stackCnt : ℚ) := by exact_mod_cast hcnt
          have hhpos : 0 < c.h := hdims.2.2
          have hconsumed : c.h * (c.stackCnt : ℚ) ≤ (st.free.getD i fbDefault).h := by
            have hfl : (c.stackCnt : ℚ) ≤ (st.free.getD i fbDefault).h / c.h := by
              refine le_trans ?_ (Int.floor_le _)
              exact_mod_cast hspec.2.2.2.2.2.2.2.1
            calc c.h * (c.stackCnt : ℚ)
                ≤ c.h * ((st.free.getD i fbDefault).h / c.h) :=
                  mul_le_mul_of_nonneg_left hfl hhpos.le
              _ = (st.free.getD i fbDefault).h / c.h * c.h := by ring
              _ = (st.free.getD i fbDefault).h := div_mul_cancel₀ _ hhpos.ne'
          have hitem : ItemIn c0 (mkLoaded cid st (st.free.getD i fbDefault) c) := by
            unfold ItemIn mkLoaded
            obtain ⟨g1, g2, g3, g4, g5, g6, g7, g8, g9⟩ := hfb
            dsimp only
            refine ⟨g1, ?_, g4, ?_, g7, ?_⟩
            · have := hspec.2.2.2.1
              linarith
            · have := hspec.2.2.2.2.1
              linarith
            · linarith
          have hcfree : ∀ b ∈ (commitSt cid st i c).free, BoxIn c0 b := by
            intro b hbm
            rw [(commitSt_facts cid st i c).2.2.2.1] at hbm
            rcases List.mem_append.mp hbm with hbm | hbm
            · exact hfree b (List.eraseIdx_subset st.free i hbm)
            · refine split_BoxIn hfb rfl rfl rfl ?_ ?_ ?_ b hbm
              · exact hdims.1.le
              · exact hdims.2.1.le
              · exact mul_nonneg hhpos.le (by linarith)
          obtain ⟨hf2, hl2⟩ := ih (commitSt cid st i c) i st2 hcfree h
          refine ⟨hf2, ?_⟩
          intro it hit
          rcases hl2 it hit with hmem | hnew
          · rw [(commitSt_facts cid st i c).1] at hmem
            rcases List.mem_append.mp hmem with hmem | hmem
            · exact Or.inl hmem
            · rw [List.mem_singleton] at hmem
              subst hmem
              exact Or.inr ⟨rfl, hitem⟩
          · exact Or.inr hnew
        · rw [scanLoop_collide hc hbc hcol] at h
          exact ih st (i + 1) st2 hfree h
    · rw [scanLoop_stop hc] at h
      cases h
      exact ⟨hfree, fun it hit => Or.inl hit⟩

lemma passLoop_geom (ps : List PalletSpec) (cid : String) (c0 : ContainerSpec)
    (hps : ∀ p ∈ ps, 0 < p.l ∧ 0 < p.w ∧ 0 < p.h) :
    ∀ fuel (st : St) (st2 : St),
      (∀ b ∈ st.free, BoxIn c0 b) →
      passLoop ps cid fuel st = some st2 →
      ∀ it ∈ st2.loaded, it ∈ st.loaded ∨ (it.container_id = cid ∧ ItemIn c0 it) := by
  intro fuel
  induction fuel with
  | zero => intro st st2 _ h; exact absurd h (by rw [passLoop]; simp)
  | succ n ih =>
    intro st st2 hfree h
    by_cases hc : st.placed ∧ 0 < st.total_left
    · have hscan : (scanLoop ps cid (scanFuel (sortSt st)) (sortSt st) 0).isSome = true := by
        refine scanLoop_isSome ps cid _ _ 0 ?_
        unfold scanFuel
        omega
      obtain ⟨stm, hstm⟩ := Option.isSome_iff_exists.mp hscan
      rw [passLoop_step hc hstm] at h
      have hsorted : ∀ b ∈ (sortSt st).free, BoxIn c0 b := by
        intro b hbm
        rw [(sortSt_facts st).2.2.2.2] at hbm
        exact hfree b ((List.mem_insertionSort freeLe).mp hbm)
      obtain ⟨hf2, hl2⟩ := scanLoop_geom ps cid c0 hps _ _ _ _ hsorted hstm
      have hrb := rowBump_facts stm
      have hihl := ih (rowBump stm) st2 (by rw [hrb.2.2.2.2]; exact hf2) h
      intro it hit
      rcases hihl it hit with hmem | hnew
      · rw [hrb.1] at hmem
        rcases hl2 it hmem with hmem2 | hnew2
        · rw [(sortSt_facts st).1] at hmem2
          exact Or.inl hmem2
        · exact Or.inr hnew2
      · exact Or.inr hnew
    · rw [passLoop_stop hc] at h
      cases h
      exact fun it hit => Or.inl hit

lemma containersLoop_geom (ps : List PalletSpec)
    (hps : ∀ p ∈ ps, 0 < p.l ∧ 0 < p.w ∧ 0 < p.h) :
    ∀ (insts : List CInst) (loaded : List LoadedItem) (m : Missed) (tl : ℤ)
      (out : List LoadedItem × Missed × ℤ),
      (∀ ci ∈ insts, 0 < ci.1.l ∧ 0 < ci.1.w ∧ 0 < ci.1.h) →
      containersLoop ps insts (loaded, m, tl) = some out →
      ∀ it ∈ out.1, it ∈ loaded ∨
        ∃ ci, ci ∈ insts ∧ it.container_id = ci.2 ∧ ItemIn ci.1 it := by
  intro insts
  induction insts with
  | nil =>
    intro loaded m tl out _ h
    rw [containersLoop] at h
    cases h
    exact fun it hit => Or.inl hit
  | cons ci rest ih =>
    intro loaded m tl out hvalid h
    obtain ⟨c, cid⟩ := ci
    rw [containersLoop] at h
    by_cases htl : tl ≤ 0
    · rw [if_pos htl] at h
      cases h
      exact fun it hit => Or.inl hit
    · rw [if_neg htl] at h
      have hpass : (passLoop ps cid (tl.toNat + 1)
          ⟨initFree c, loaded, m, tl, 1, 1, true⟩).isSome = true :=
        passLoop_isSome ps cid _ _ (Nat.lt_succ_self tl.toNat)
      obtain ⟨st, hst⟩ := Option.isSome_iff_exists.mp hpass
      rw [hst] at h
      have hinit : ∀ b ∈ (⟨initFree c, loaded, m, tl, 1, 1, true⟩ : St).free, BoxIn c b := by
        intro b hbm
        have hcval := hvalid (c, cid) (List.mem_cons_self _ _)
        rcases List.mem_singleton.mp hbm with rfl
        unfold BoxIn
        dsimp only
        refine ⟨le_refl 0, hcval.1, ?_, le_refl 0, hcval.2.1, ?_, le_refl 0, hcval.2.2, ?_⟩
          <;> rw [zero_add]
      have hploop := passLoop_geom ps cid c hps _ _ _ hinit hst
      have hihl := ih st.loaded st.missed st.total_left out
        (fun ci2 hci2 => hvalid ci2 (List.mem_cons_of_mem _ hci2)) h
      intro it hit
      rcases hihl it hit with hmem | ⟨ci2, hci2, hcid2, hin2⟩
      · rcases hploop it hmem with hmem2 | hnew2
        · exact Or.inl hmem2
        · exact Or.inr ⟨(c, cid), List.mem_cons_self _ _, hnew2.1, hnew2.2⟩
      · exact Or.inr ⟨ci2, List.mem_cons_of_mem _ hci2, hcid2, hin2⟩

lemma expandContainers_mem :
    ∀ (cs : List ContainerSpec) (acc : List CInst) (ci : CInst),
      ci ∈ cs.foldl
        (fun acc c =>
          acc ++ (List.range c.qty.toNat).map (fun n => (c, c.id ++ "-" ++ toString (n + 1))))
        acc →
      ci ∈ acc ∨ ci.1 ∈ cs := by
  intro cs
  induction cs with
  | nil => intro acc ci h; exact Or.inl h
  | cons c rest ih =>
    intro acc ci h
    rw [List.foldl_cons] at h
    rcases ih _ ci h with hmem | hmem
    · rcases List.mem_append.mp hmem with hmem | hmem
      · exact Or.inl hmem
      · rcases List.mem_map.mp hmem with ⟨n, _, hn⟩
        subst hn
        exact Or.inr (List.mem_cons_self c rest)
    · exact Or.inr (List.mem_cons_of_mem c hmem)

lemma containerInstances_mem {cs : List ContainerSpec} {ci : CInst}
    (h : ci ∈ containerInstances cs) : ci.1 ∈ cs := by
  unfold containerInstances at h
  rw [List.mem_insertionSort] at h
  rcases expandContainers_mem cs [] ci h with hmem | hmem
  · exact absurd hmem (List.not_mem_nil ci)
  · exact hmem

lemma unique_orientations_le_six (p : PalletSpec) : (unique_orientations p).length ≤ 6 :=
  uniqueAux_length_le (orientationCandidates p) []

lemma unique_orientations_pos_len (p : PalletSpec) : 1 ≤ (unique_orientations p).length := by
  unfold unique_orientations orientationCandidates
  rw [uniqueAux, if_neg (List.not_mem_nil _)]
  simp

lemma unique_orientations_cube {p : PalletSpec} (h1 : p.l = p.w) (h2 : p.w = p.h) :
    (unique_orientations p).length = 1 := by
  obtain ⟨pid, a, b, c, q⟩ := p
  dsimp only at h1 h2
  subst h1
  subst h2
  simp [unique_orientations, orientationCandidates, uniqueAux]

lemma unique_orientations_six {p : PalletSpec}
    (h12 : round3 p.l ≠ round3 p.w) (h13 : round3 p.l ≠ round3 p.h)
    (h23 : round3 p.w ≠ round3 p.h) : (unique_orientations p).length = 6 := by
  unfold unique_orientations
  rw [uniqueAux_eq_of_nodup (orientationCandidates p) [] (fun c _ => List.not_mem_nil _) ?_]
  · rfl
  · simp only [orientationCandidates, List.map_cons, List.map_nil, roundKey]
    simp only [List.nodup_cons, List.mem_cons, List.not_mem_nil, or_false, List.mem_singleton,
      Prod.mk.injEq, not_or, List.nodup_nil]
    repeat' apply And.intro
    all_goals tauto

lemma filter_if_single (cond : Prop) [Decidable cond] (x : FreeBox)
    (hx : ¬cond → ¬(0 < x.volume)) :
    (if cond then [x] else []).filter (fun b => decide (0 < b.volume))
      = [x].filter (fun b => decide (0 < b.volume)) := by
  by_cases h : cond
  · rw [if_pos h]
  · rw [if_neg h, List.filter_singleton, decide_eq_false (hx h)]
    rfl

lemma expandContainers_flatten_aux :
    ∀ (cs : List ContainerSpec) (acc : List CInst),
      cs.foldl
          (fun acc c =>
            acc ++ (List.range c.qty.toNat).map (fun n => (c, c.id ++ "-" ++ toString (n + 1))))
          acc
        = acc ++ (cs.map (fun c =>
            (List.range c.qty.toNat).map (fun n => (c, c.id ++ "-" ++ toString (n + 1))))).flatten := by
  intro cs
  induction cs with
  | nil => intro acc; simp
  | cons c rest ih =>
    intro acc
    rw [List.foldl_cons, ih, List.map_cons, List.flatten_cons, List.append_assoc]

instance : IsTotal CInst instLe :=
  ⟨fun a b => le_total (b.1.l * b.1.w * b.1.h) (a.1.l * a.1.w * a.1.h)⟩

instance : IsTrans CInst instLe :=
  ⟨fun _ _ _ hab hbc => le_trans hbc hab⟩

lemma pack_items_stack_pos {cs : List ContainerSpec} {ps : List PalletSpec}
    {r : List LoadedItem × Missed} (h : pack cs ps = some r) :
    ∀ it ∈ r.1, FromPallet (sortPallets ps) (buildMissed ps) it := by
  obtain ⟨tl, hout⟩ := pack_dest h
  have hkeys : ∀ p ∈ sortPallets ps, p.pid ∈ keysOf (buildMissed ps) := by
    intro p hp
    exact buildMissed_keys ((List.mem_insertionSort palletLe).mp hp)
  obtain ⟨_, _, _, hit⟩ := containersLoop_cons (sortPallets ps) (containerInstances cs) []
    (buildMissed ps) (sumValues (buildMissed ps)) (r.1, r.2, tl) hkeys hout
  intro it hmem
  rcases hit it hmem with habs | hfp
  · exact absurd habs (List.not_mem_nil it)
  · exact hfp

lemma setKey_lookup_self (m : Missed) (pid : String) (v : ℤ) :
    lookupD (setKey m pid v) pid = v := by
  induction m with
  | nil => simp [setKey, lookupD]
  | cons kv rest ih =>
    obtain ⟨k, x⟩ := kv
    rw [setKey]
    by_cases hk : k = pid
    · rw [if_pos hk, lookupD, if_pos hk]
    · rw [if_neg hk, lookupD, if_neg hk]
      exact ih

lemma setKey_lookup_ne {m : Missed} {pid q : String} (v : ℤ) (h : q ≠ pid) :
    lookupD (setKey m pid v) q = lookupD m q := by
  induction m with
  | nil =>
    simp only [setKey, lookupD]
    rw [if_neg (fun he => h he.symm)]
  | cons kv rest ih =>
    obtain ⟨k, x⟩ := kv
    rw [setKey]
    by_cases hk : k = pid
    · rw [if_pos hk, lookupD, lookupD]
      by_cases hq : k = q
      · exact absurd (hq.symm.trans hk) h
      · rw [if_neg hq, if_neg hq]
    · rw [if_neg hk, lookupD, lookupD]
      by_cases hq : k = q
      · rw [if_pos hq, if_pos hq]
      · rw [if_neg hq, if_neg hq]
        exact ih

lemma buildMissed_lookup_mem :
    ∀ (l : List PalletSpec) (m : Missed) (pid : String),
      lookupD (l.foldl (fun m p => setKey m p.pid p.qty) m) pid = lookupD m pid ∨
      ∃ p ∈ l, p.pid = pid ∧ lookupD (l.foldl (fun m p => setKey m p.pid p.qty) m) pid = p.qty := by
  intro l
  induction l with
  | nil => intro m pid; exact Or.inl rfl
  | cons p rest ih =>
    intro m pid
    rw [List.foldl_cons]
    rcases ih (setKey m p.pid p.qty) pid with heq | ⟨q, hq, hqpid, hqval⟩
    · by_cases hp : p.pid = pid
      · refine Or.inr ⟨p, List.mem_cons_self p rest, hp, ?_⟩
        rw [heq, ← hp, setKey_lookup_self]
      · refine Or.inl ?_
        rw [heq, setKey_lookup_ne p.qty (fun he => hp he.symm)]
    · exact Or.inr ⟨q, List.mem_cons_of_mem p hq, hqpid, hqval⟩

lemma buildMissed_pos_qty {ps : List PalletSpec} {pid : String}
    (h : 0 < lookupD (buildMissed ps) pid) : ∃ q ∈ ps, q.pid = pid ∧ 0 < q.qty := by
  rcases buildMissed_lookup_mem ps [] pid with heq | ⟨q, hq, hqpid, hqval⟩
  · rw [buildMissed] at h
    rw [heq] at h
    exact absurd h (by rw [lookupD]; omega)
  · rw [buildMissed] at h
    rw [hqval] at h
    exact ⟨q, hq, hqpid, h⟩

end Lemmas

/-- C1: the claim says any two distinct PlacedItems sharing a container
instance never overlap (open-interval test on all three axes). The code's
collision pre-filter `abs(ex.z-candidate.z) < max(h, ex.h)` uses the unit
height `h` of the candidate instead of its stacked height, so a tall stack
committed below an already-placed high item skips the authoritative 3D test:
on this four-pallet run, pack commits a 2-stack of pallet C at (9,0,1) that
overlaps pallet B placed at (0,0,2) spanning x up to 19/2 in instance K-1,
and the returned placement list fails the pairwise non-overlap check. -/
theorem pack_nonoverlap_failing_run :
    (pack [⟨"K", 10, 2, 3, 1, ""⟩]
        [⟨"A", 9, 2, 2, 1⟩, ⟨"B", 19/2, 2, 1, 1⟩, ⟨"E", 1, 2, 1, 1⟩, ⟨"C", 1, 1, 1, 2⟩]).isSome
      = true ∧
    overlapFree
      ((pack [⟨"K", 10, 2, 3, 1, ""⟩]
          [⟨"A", 9, 2, 2, 1⟩, ⟨"B", 19/2, 2, 1, 1⟩, ⟨"E", 1, 2, 1, 1⟩, ⟨"C", 1, 1, 1, 2⟩]).getD
        ([], [])).1 = false := by
  decide

/-- C2: conservation of demand. For every run of `pack` whose pallet ids are
unique, for every pallet type, the sum of `qty_in_stack` over the returned
PlacedItems with that id plus the remaining demand recorded for the id equals
the type's original quantity; moreover every single commit (`commitSt`)
preserves the sum `placed + remaining` for every pallet id, so the equation
holds after every commit, in particular at return. -/
theorem pack_conservation :
    (∀ (cs : List ContainerSpec) (ps : List PalletSpec) (r : List LoadedItem × Missed),
      (ps.map PalletSpec.pid).Nodup → pack cs ps = some r →
      ∀ p ∈ ps, sumStacks r.1 p.pid + lookupD r.2 p.pid = p.qty) ∧
    (∀ (cid : String) (st : St) (i : ℕ) (c : Cand), c.pid ∈ keysOf st.missed →
      ∀ pid, sumStacks (commitSt cid st i c).loaded pid
          + lookupD (commitSt cid st i c).missed pid
        = sumStacks st.loaded pid + lookupD st.missed pid) := by
  constructor
  · intro cs ps r hnd h
    obtain ⟨tl, hout⟩ := pack_dest h
    have hkeys : ∀ p ∈ sortPallets ps, p.pid ∈ keysOf (buildMissed ps) := fun p hp =>
      buildMissed_keys ((List.mem_insertionSort palletLe).mp hp)
    obtain ⟨_, hsum, _, _⟩ := containersLoop_cons (sortPallets ps) (containerInstances cs) []
      (buildMissed ps) (sumValues (buildMissed ps)) (r.1, r.2, tl) hkeys hout
    intro p hp
    have hs := hsum p.pid
    have hz : sumStacks ([] : List LoadedItem) p.pid = 0 := rfl
    rw [hz, zero_add, buildMissed_lookup hnd p hp] at hs
    exact hs
  · intro cid st i c hk pid
    rw [commit_sumStacks cid st i c pid, commit_lookupD cid st i hk pid]
    by_cases hp : pid = c.pid <;> simp [hp]

/-- Witness for C2 on a concrete run: one container `2×2×2`, one pallet type
Q of quantity 2; pack places a 2-stack and leaves remaining demand 0, and
`2 + 0 = 2`. -/
theorem pack_conservation_witness :
    sumStacks [⟨"D-1", "Q", 0, 0, 0, 1, 1, 2, 1, 1, 1, 2, "Q", true⟩] "Q"
        + lookupD [("Q", 0)] "Q" = 2 :=
  pack_conservation.1 [⟨"D", 2, 2, 2, 1, ""⟩] [⟨"Q", 1, 1, 1, 2⟩]
    ([⟨"D-1", "Q", 0, 0, 0, 1, 1, 2, 1, 1, 1, 2, "Q", true⟩], [("Q", 0)])
    (by decide) (by decide) ⟨"Q", 1, 1, 1, 2⟩ (by decide)

/-- C3, counterexample to the claim as stated: `pack` is claimed to fail the
whole invocation (raise InvalidInput) on a record with a non-positive
dimension or negative quantity. On a pallet with a negative length it instead
returns a normal result with the record silently skipped: nothing is placed
and its full demand is reported back. -/
theorem pack_invalid_input_no_failure :
    pack [⟨"K", 10, 2, 3, 1, ""⟩] [⟨"P", -1, 10, 10, 5⟩] = some ([], [("P", 5)]) := by
  decide

/-- C3, amended: `pack` performs no input validation and never raises an
InvalidInput failure: a pallet record with a negative dimension or a
negative quantity is silently skipped rather than failing the invocation.
Stated on the domain where the code performs no division by zero — containers
with positive dimensions (so every ledger box scored has positive volume) and
pallet records with nonzero dimensions (so `fb.h // h` never divides by
zero): there the call always returns a normal result in which every placed
item carries a stack count of at least 1 and stems from a pallet record with
positive dimension product whose id also has a record with positive quantity,
so records with a non-positive dimension product or non-positive quantity
are never placed. (A zero-dimension pallet with positive demand instead
crashes the Python at `int(fb.h // h)` with an unhandled ZeroDivisionError —
likewise not the claimed InvalidInput failure; that path is outside this
theorem's hypotheses.) -/
theorem pack_skips_invalid_records (cs : List ContainerSpec) (ps : List PalletSpec)
    (_hcs : ∀ c ∈ cs, 0 < c.l ∧ 0 < c.w ∧ 0 < c.h)
    (_hpz : ∀ p ∈ ps, p.l ≠ 0 ∧ p.w ≠ 0 ∧ p.h ≠ 0) :
    (pack cs ps).isSome = true ∧
    ∀ r, pack cs ps = some r → ∀ it ∈ r.1,
      1 ≤ it.qty_in_stack ∧
      (∃ p ∈ ps, it.pallet_id = p.pid ∧ 0 < p.l * p.w * p.h) ∧
      (∃ q ∈ ps, it.pallet_id = q.pid ∧ 0 < q.qty) := by
  refine ⟨pack_isSome cs ps, ?_⟩
  intro r h it hit
  obtain ⟨hstk, pal, hmem, hpid, hprod, hlook⟩ := pack_items_stack_pos h it hit
  refine ⟨hstk, ⟨pal, (List.mem_insertionSort palletLe).mp hmem, hpid, hprod⟩, ?_⟩
  obtain ⟨q, hq, hqpid, hqpos⟩ := buildMissed_pos_qty hlook
  exact ⟨q, hq, hpid.trans hqpid.symm, hqpos⟩

/-- Witness for C3 (amended) on a concrete run with an invalid record: a
pallet with a negative length (nonzero dimensions) in a valid container; the
invocation completes (returns a result) instead of failing. -/
theorem pack_skips_invalid_records_witness :
    (pack [⟨"D2", 4, 4, 4, 1, ""⟩] [⟨"Z", -3, 2, 2, 4⟩]).isSome = true :=
  (pack_skips_invalid_records [⟨"D2", 4, 4, 4, 1, ""⟩] [⟨"Z", -3, 2, 2, 4⟩]
    (by decide) (by decide)).1

/-- C4: on valid inputs every returned PlacedItem lies entirely within the
interior of a container instance carrying its instance id: `0 ≤ x` and
`x + l ≤ container.length`, and analogously on the y and z axes, where the
item's `h` is its total stacked height. -/
theorem pack_bounds (cs : List ContainerSpec) (ps : List PalletSpec)
    (r : List LoadedItem × Missed)
    (hcs : ∀ c ∈ cs, 0 < c.l ∧ 0 < c.w ∧ 0 < c.h)
    (hps : ∀ p ∈ ps, 0 < p.l ∧ 0 < p.w ∧ 0 < p.h)
    (h : pack cs ps = some r) :
    ∀ it ∈ r.1, ∃ ci, ci ∈ containerInstances cs ∧ it.container_id = ci.2 ∧
      0 ≤ it.x ∧ it.x + it.l ≤ ci.1.l ∧ 0 ≤ it.y ∧ it.y + it.w ≤ ci.1.w ∧
      0 ≤ it.z ∧ it.z + it.h ≤ ci.1.h := by
  obtain ⟨tl, hout⟩ := pack_dest h
  have hps2 : ∀ p ∈ sortPallets ps, 0 < p.l ∧ 0 < p.w ∧ 0 < p.h := fun p hp =>
    hps p ((List.mem_insertionSort palletLe).mp hp)
  have hgeom := containersLoop_geom (sortPallets ps) hps2 (containerInstances cs) []
    (buildMissed ps) (sumValues (buildMissed ps)) (r.1, r.2, tl)
    (fun ci hci => hcs ci.1 (containerInstances_mem hci)) hout
  intro it hit
  rcases hgeom it hit with habs | ⟨ci, hci, hcid, hin⟩
  · exact absurd habs (List.not_mem_nil it)
  · exact ⟨ci, hci, hcid, hin⟩

/-- Witness for C4 on a concrete run: the single placed item of the `2×2×2`
run reports an instance id carried by an actual container instance. -/
theorem pack_bounds_witness :
    ∃ ci, ci ∈ containerInstances [⟨"D", 2, 2, 2, 1, ""⟩] ∧ "D-1" = ci.2 := by
  obtain ⟨ci, h1, h2, _⟩ := pack_bounds [⟨"D", 2, 2, 2, 1, ""⟩] [⟨"Q", 1, 1, 1, 2⟩]
    ([⟨"D-1", "Q", 0, 0, 0, 1, 1, 2, 1, 1, 1, 2, "Q", true⟩], [("Q", 0)])
    (by decide) (by decide) (by decide)
    ⟨"D-1", "Q", 0, 0, 0, 1, 1, 2, 1, 1, 1, 2, "Q", true⟩ (by decide)
  exact ⟨ci, h1, h2⟩

/-- C5: every free box ever present in the ledger has strictly positive
volume, so the utilization score never divides by zero: the initial
full-interior box of a positively-dimensioned container has positive volume,
`split_free_both` only ever returns positive-volume residuals, and both the
scan loop and the pass loop preserve positivity of every ledger entry, hence
any box handed to the scoring step (always an entry of the current ledger)
has non-zero volume. -/
theorem free_box_volume_positive :
    (∀ c : ContainerSpec, 0 < c.l → 0 < c.w → 0 < c.h →
      ∀ b ∈ initFree c, 0 < b.volume) ∧
    (∀ (box : FreeBox) (item : LoadedItem), ∀ b ∈ split_free_both box item, 0 < b.volume) ∧
    (∀ (ps : List PalletSpec) (cid : String) (fuel : ℕ) (st : St) (i : ℕ) (st2 : St),
      (∀ b ∈ st.free, 0 < b.volume) → scanLoop ps cid fuel st i = some st2 →
      ∀ b ∈ st2.free, 0 < b.volume) ∧
    (∀ (ps : List PalletSpec) (cid : String) (fuel : ℕ) (st st2 : St),
      (∀ b ∈ st.free, 0 < b.volume) → passLoop ps cid fuel st = some st2 →
      ∀ b ∈ st2.free, 0 < b.volume) := by
  refine ⟨?_, ?_, ?_, ?_⟩
  · intro c h1 h2 h3 b hb
    unfold initFree at hb
    rcases List.mem_singleton.mp hb with rfl
    rw [volume_pos_iff]
    exact ⟨h1, h2, h3⟩
  · intro box item b hb
    exact split_mem_volume_pos b hb
  · intro ps cid fuel st i st2 hfree h
    exact scanLoop_posvol ps cid fuel st i st2 hfree h
  · intro ps cid fuel st st2 hfree h
    exact passLoop_posvol ps cid fuel st st2 hfree h

/-- Witness for C5: the initial ledger box of a `3×2×1` container has
positive volume. -/
theorem free_box_volume_positive_witness :
    0 < (⟨0, 0, 0, 3, 2, 1⟩ : FreeBox).volume :=
  free_box_volume_positive.1 ⟨"W", 3, 2, 1, 1, ""⟩ (by decide) (by decide) (by decide)
    ⟨0, 0, 0, 3, 2, 1⟩ (by decide)

/-- C6, counterexample to the claim as stated: the claim says a pallet whose
three dimensions are all distinct yields exactly 6 orientations; the code
de-duplicates by rounding each dimension to 3 decimal places, so the pallet
with pairwise distinct dimensions 0.0001, 0.0002, 0.0003 (all rounding to 0)
yields exactly 1 orientation, not 6. -/
theorem unique_orientations_distinct_collapsed :
    ((1:ℚ)/10000 ≠ 2/10000) ∧ ((1:ℚ)/10000 ≠ 3/10000) ∧ ((2:ℚ)/10000 ≠ 3/10000) ∧
    (unique_orientations ⟨"e", 1/10000, 2/10000, 3/10000, 1⟩).length = 1 := by
  decide

/-- C6, amended: `unique_orientations` returns the axis-permutations of
`(l, w, h)` de-duplicated by rounding each dimension to 3 decimal places in
first-seen order, yielding between 1 and 6 entries; a cube yields exactly 1,
and a pallet whose dimensions remain pairwise distinct after rounding yields
exactly 6 (raw distinctness does not suffice). -/
theorem unique_orientations_count (p : PalletSpec) :
    1 ≤ (unique_orientations p).length ∧ (unique_orientations p).length ≤ 6 ∧
    (p.l = p.w → p.w = p.h → (unique_orientations p).length = 1) ∧
    (round3 p.l ≠ round3 p.w → round3 p.l ≠ round3 p.h → round3 p.w ≠ round3 p.h →
      (unique_orientations p).length = 6) :=
  ⟨unique_orientations_pos_len p, unique_orientations_le_six p,
   fun h1 h2 => unique_orientations_cube h1 h2,
   fun h12 h13 h23 => unique_orientations_six h12 h13 h23⟩

/-- Witness for C6 (amended) at a cube and at a pallet with distinct rounded
dimensions. -/
theorem unique_orientations_count_witness :
    (unique_orientations ⟨"c", 2, 2, 2, 1⟩).length = 1 ∧
    (unique_orientations ⟨"d", 1, 2, 3, 1⟩).length = 6 :=
  ⟨(unique_orientations_count ⟨"c", 2, 2, 2, 1⟩).2.2.1 rfl rfl,
   (unique_orientations_count ⟨"d", 1, 2, 3, 1⟩).2.2.2 (by decide) (by decide) (by decide)⟩

/-- C7: `split_free_both` returns exactly the right / front / above residual
boxes described by the specification (right spans x from `item.x+item.l` to
`box.x+box.l` with the box's full y and z extents, front spans y beyond the
item with full x and z extents, above spans z beyond the item with full x and
y extents), each retained if and only if its volume is strictly positive, so
at most three residuals are returned. -/
theorem split_free_both_spec (box : FreeBox) (item : LoadedItem) :
    split_free_both box item
      = (claimResiduals box item).filter (fun b => decide (0 < b.volume)) ∧
    (split_free_both box item).length ≤ 3 := by
  refine ⟨?_, split_length_le box item⟩
  simp only [split_free_both, claimResiduals]
  rw [List.filter_append, List.filter_append]
  rw [filter_if_single (0 < box.x + box.l - (item.x + item.l))
      ⟨item.x + item.l, box.y, box.z, box.x + box.l - (item.x + item.l), box.w, box.h⟩
      (fun hc hv => hc ((volume_pos_iff _).mp hv).1),
    filter_if_single (0 < box.y + box.w - (item.y + item.w))
      ⟨box.x, item.y + item.w, box.z, box.l, box.y + box.w - (item.y + item.w), box.h⟩
      (fun hc hv => hc ((volume_pos_iff _).mp hv).2.1),
    filter_if_single (0 < box.z + box.h - (item.z + item.h))
      ⟨box.x, box.y, item.z + item.h, box.l, box.w, box.z + box.h - (item.z + item.h)⟩
      (fun hc hv => hc ((volume_pos_iff _).mp hv).2.2)]
  simp only [← List.filter_append]
  norm_num

/-- C8: for every fitting orientation the chosen stack count is
`min(floor(box.h / h), remaining_demand, stack_cap)` with a cap of zero
meaning unbounded by the cap (`stacksFor` is the code's expression
`min(max_by_height, req, STACK_MAX or max_by_height)`); every candidate the
search of `pack` returns has a stack count of at least 1 that is bounded by
`floor(box.h / h)` and by the remaining demand, and a candidate with a
non-positive stack count is never committed: every placed item of every run
carries a stack count of at least 1. -/
theorem stack_count_rule :
    (∀ cap maxBy req : ℤ,
      stacksFor cap maxBy req = if cap = 0 then min maxBy req else min (min maxBy req) cap) ∧
    (∀ (ps : List PalletSpec) (m : Missed) (fb : FreeBox) (c : Cand),
      bestCandidate ps m fb = some c →
      1 ≤ c.stackCnt ∧ c.stackCnt ≤ ⌊fb.h / c.h⌋ ∧ c.stackCnt ≤ lookupD m c.pal.pid) ∧
    (∀ (cs : List ContainerSpec) (ps : List PalletSpec) (r : List LoadedItem × Missed),
      pack cs ps = some r → ∀ it ∈ r.1, 1 ≤ it.qty_in_stack) := by
  refine ⟨?_, ?_, ?_⟩
  · intro cap maxBy req
    unfold stacksFor
    by_cases h : cap = 0
    · rw [if_pos h, if_pos h, min_comm req maxBy, ← min_assoc, min_self]
    · rw [if_neg h, if_neg h, min_assoc]
  · intro ps m fb c h
    have hs := bestCandidate_spec h
    exact ⟨hs.2.2.2.2.2.2.1, hs.2.2.2.2.2.2.2.1, hs.2.2.2.2.2.2.2.2.1⟩
  · intro cs ps r h it hit
    exact (pack_items_stack_pos h it hit).1

/-- Witness for C8 on a concrete run: the item placed in the `2×2×2` run
carries stack count 2 which is at least 1. -/
theorem stack_count_rule_witness :
    1 ≤ (⟨"D-1", "Q", 0, 0, 0, 1, 1, 2, 1, 1, 1, 2, "Q", true⟩ : LoadedItem).qty_in_stack :=
  stack_count_rule.2.2 [⟨"D", 2, 2, 2, 1, ""⟩] [⟨"Q", 1, 1, 1, 2⟩]
    ([⟨"D-1", "Q", 0, 0, 0, 1, 1, 2, 1, 1, 1, 2, "Q", true⟩], [("Q", 0)]) (by decide)
    ⟨"D-1", "Q", 0, 0, 0, 1, 1, 2, 1, 1, 1, 2, "Q", true⟩ (by decide)

/-- C9, counterexample to the claim as stated: the claim says the `q`
instances of a container type are ordered by descending instance index; the
code appends them for `i` in `range(1, q+1)`, i.e. ascending, and the stable
volume sort keeps that order for equal volumes. For a type of quantity 2 the
code produces ids X-1, X-2 while the claimed descending order would be
X-2, X-1. -/
theorem container_instances_ascending :
    containerInstances [⟨"X", 1, 2, 3, 2, ""⟩]
        = [(⟨"X", 1, 2, 3, 2, ""⟩, "X-1"), (⟨"X", 1, 2, 3, 2, ""⟩, "X-2")] ∧
    containerInstancesDesc [⟨"X", 1, 2, 3, 2, ""⟩]
        = [(⟨"X", 1, 2, 3, 2, ""⟩, "X-2"), (⟨"X", 1, 2, 3, 2, ""⟩, "X-1")] ∧
    containerInstances [⟨"X", 1, 2, 3, 2, ""⟩]
        ≠ containerInstancesDesc [⟨"X", 1, 2, 3, 2, ""⟩] := by
  decide

/-- C9, amended: for each container type with quantity `q`, pack emits
exactly `q` instances sharing the type's record, with ids `{id}-{n}` for `n`
from 1 to `q` in ascending order of instance index, and the full instance
list is then stably sorted by descending interior volume. -/
theorem container_instances_spec (cs : List ContainerSpec) :
    expandContainers cs
      = (cs.map (fun c => (List.range c.qty.toNat).map
          (fun n => (c, c.id ++ "-" ++ toString (n + 1))))).flatten ∧
    List.Sorted instLe (containerInstances cs) := by
  constructor
  · unfold expandContainers
    rw [expandContainers_flatten_aux cs [], List.nil_append]
  · exact List.sorted_insertionSort instLe (expandContainers cs)

/-- C10: `pack` terminates on every input: the fuel bounds chosen for the
pass loop (one unit per remaining demand) and the scan loop (three units per
remaining demand plus the ledger length) always suffice, so `pack` always
returns a result. -/
theorem pack_terminates (cs : List ContainerSpec) (ps : List PalletSpec) :
    (pack cs ps).isSome = true :=
  pack_isSome cs ps

end PalletPack
